import Mathlib

/-!
LRU cache of the C web server (`src/cache.c`).

Shallow embedding of the cache engine: a doubly linked recency list threaded
through heap-allocated `struct cache_entry` cells, plus a key index.

* Pointers are `Option Nat`: `none` is `NULL`, `some a` is the address `a`.
* The heap maps an address to the entry stored there; an address that was never
  allocated, or was freed, maps to `none`.  Dereferencing `NULL` or such an
  address makes the operation return `none` (the C program has undefined
  behaviour there).
* `malloc` is a bump allocator: it hands out the address `brk` and increments
  `brk`; it never fails and never reuses an address.
* `int` fields are `Int`.  `cur_size` never exceeds `max_size + 1`, so the
  increment cannot overflow unless `max_size` is `INT_MAX`.
* C strings are `String`, byte buffers are `List Nat`.
* The key index stores `&entry->path`, the address of the first field of the entry, which
  `cache_get` uses as the address of the entry: the index maps a key to an entry address.
* The `while` loop of `cache_free` takes a fuel argument; the statements about it hold for
  every fuel that covers the length of the recency list.
-/

namespace LRUCache

/-- The C `struct cache_entry` (declared in `cache.h`). -/
structure cache_entry where
  path : String
  content_type : String
  content_length : Int
  content : List Nat
  prev : Option Nat
  next : Option Nat
  deriving DecidableEq, Repr

/-- Modelled from the spec: `struct hashtable` of `hashtable.h`, which is not part of the
sources.  The Key Index associates a key with a reference to an entry; it is kept as an
association list holding at most one pair per key. -/
abbrev hashtable := List (String × Nat)

/-- Modelled from the spec: `hashtable_create` of `hashtable.c` (absent): the empty index,
whatever the size hint. -/
def hashtable_create (_size : Int) : hashtable := []

/-- Modelled from the spec: `hashtable_get` of `hashtable.c` (absent): the reference
associated with the key, or not-found. -/
def hashtable_get : hashtable → String → Option Nat
  | [], _ => none
  | (k, v) :: ht, key => if k = key then some v else hashtable_get ht key

/-- Modelled from the spec: `hashtable_delete` of `hashtable.c` (absent): removes the
association of the key; no effect when the key is absent. -/
def hashtable_delete : hashtable → String → hashtable
  | [], _ => []
  | (k, v) :: ht, key => if k = key then hashtable_delete ht key else (k, v) :: hashtable_delete ht key

/-- Modelled from the spec: `hashtable_put` of `hashtable.c` (absent): associates the key
with the reference, overwriting an association the key already has. -/
def hashtable_put (ht : hashtable) (key : String) (data : Nat) : hashtable :=
  (key, data) :: hashtable_delete ht key

/-- The C `struct cache` (declared in `cache.h`). -/
structure cache where
  head : Option Nat
  tail : Option Nat
  cur_size : Int
  max_size : Int
  index : hashtable

/-- Program state: the heap of entries, the allocation pointer, the log of `free_entry`
calls (most recent first) and the cache structure the functions operate on. -/
structure Mem where
  heap : Nat → Option cache_entry
  brk : Nat
  freed : List Nat
  c : cache

/-- Read of `p->prev`. -/
def get_prev (h : Nat → Option cache_entry) (p : Option Nat) : Option (Option Nat) :=
  match p with
  | none => none
  | some a => (h a).map fun e => e.prev

/-- Read of `p->next`. -/
def get_next (h : Nat → Option cache_entry) (p : Option Nat) : Option (Option Nat) :=
  match p with
  | none => none
  | some a => (h a).map fun e => e.next

/-- Assignment `p->prev = v`. -/
def set_prev (h : Nat → Option cache_entry) (p : Option Nat) (v : Option Nat) :
    Option (Nat → Option cache_entry) :=
  match p with
  | none => none
  | some a =>
    match h a with
    | none => none
    | some e => some (Function.update h a (some { e with prev := v }))

/-- Assignment `p->next = v`. -/
def set_next (h : Nat → Option cache_entry) (p : Option Nat) (v : Option Nat) :
    Option (Nat → Option cache_entry) :=
  match p with
  | none => none
  | some a =>
    match h a with
    | none => none
    | some e => some (Function.update h a (some { e with next := v }))

/-- Allocate a cache entry: `alloc_entry`.  Returns the new state and the address. -/
def alloc_entry (m : Mem) (path content_type : String) (content : List Nat)
    (content_length : Int) : Mem × Nat :=
  let ce := m.brk
  let e : cache_entry :=
    { path := path
      content_type := content_type
      content := content.take content_length.toNat
      content_length := content_length
      prev := none
      next := none }
  ({ m with heap := Function.update m.heap ce (some e), brk := m.brk + 1 }, ce)

/-- Deallocate a cache entry: `free_entry`. -/
def free_entry (m : Mem) (entry : Nat) : Option Mem :=
  match m.heap entry with
  | none => none
  | some _ => some { m with heap := Function.update m.heap entry none, freed := entry :: m.freed }

/-- Insert a cache entry at the head of the linked list: `dllist_insert_head`. -/
def dllist_insert_head (m : Mem) (ce : Nat) : Option Mem :=
  match m.c.head with
  | none =>
    -- cache->head = cache->tail = ce; ce->prev = ce->next = NULL
    (set_next m.heap (some ce) none).bind fun h1 =>
    (set_prev h1 (some ce) none).bind fun h2 =>
    some { m with heap := h2, c := { m.c with head := some ce, tail := some ce } }
  | some hd =>
    -- cache->head->prev = ce; ce->next = cache->head; ce->prev = NULL; cache->head = ce
    (set_prev m.heap (some hd) (some ce)).bind fun h1 =>
    (set_next h1 (some ce) (some hd)).bind fun h2 =>
    (set_prev h2 (some ce) none).bind fun h3 =>
    some { m with heap := h3, c := { m.c with head := some ce } }

/-- Move a cache entry to the head of the list: `dllist_move_to_head`. -/
def dllist_move_to_head (m : Mem) (ce : Nat) : Option Mem :=
  if some ce ≠ m.c.head then
    (if some ce = m.c.tail then
      -- We're the tail
      (get_prev m.heap (some ce)).bind fun tail =>
      (set_next m.heap tail none).bind fun h1 =>
      some { m with heap := h1, c := { m.c with tail := tail } }
    else
      -- We're neither the head nor the tail
      (get_prev m.heap (some ce)).bind fun p =>
      (get_next m.heap (some ce)).bind fun n =>
      (set_next m.heap p n).bind fun h1 =>
      (get_next h1 (some ce)).bind fun n =>
      (get_prev h1 (some ce)).bind fun p =>
      (set_prev h1 n p).bind fun h2 =>
      some { m with heap := h2 }).bind fun m1 =>
    (set_next m1.heap (some ce) m1.c.head).bind fun h3 =>
    (set_prev h3 m1.c.head (some ce)).bind fun h4 =>
    (set_prev h4 (some ce) none).bind fun h5 =>
    some { m1 with heap := h5, c := { m1.c with head := some ce } }
  else
    some m

/-- Removes the tail from the list and returns it: `dllist_remove_tail`. -/
def dllist_remove_tail (m : Mem) : Option (Mem × Nat) :=
  -- oldtail = cache->tail; cache->tail = oldtail->prev
  (get_prev m.heap m.c.tail).bind fun tail =>
  -- cache->tail->next = NULL
  (set_next m.heap tail none).bind fun h1 =>
  -- cache->cur_size--; return oldtail
  m.c.tail.map fun oldtail =>
    ({ m with heap := h1, c := { m.c with tail := tail, cur_size := m.c.cur_size - 1 } }, oldtail)

/-- Create a new cache: `cache_create`, on an empty heap. -/
def cache_create (max_size : Int) (hashsize : Int) : Mem :=
  { heap := fun _ => none
    brk := 0
    freed := []
    c := { head := none, tail := none, cur_size := 0, max_size := max_size,
           index := hashtable_create hashsize } }

/-- Store an entry in the cache: `cache_put`. -/
def cache_put (m : Mem) (path content_type : String) (content : List Nat)
    (content_length : Int) : Option Mem :=
  -- entry = alloc_entry(path, content_type, content, content_length)
  let r := alloc_entry m path content_type content content_length
  let entry := r.2
  -- dllist_insert_head(cache, entry)
  (dllist_insert_head r.1 entry).bind fun m2 =>
  -- hashtable_put(cache->index, entry->path, &entry->path); cache->cur_size++
  (m2.heap entry).bind fun e =>
  let m3 : Mem :=
    { m2 with c := { m2.c with index := hashtable_put m2.c.index e.path entry,
                               cur_size := m2.c.cur_size + 1 } }
  if m3.c.cur_size > m3.c.max_size then
    -- tail = dllist_remove_tail(cache)
    (dllist_remove_tail m3).bind fun r4 =>
    let tail := r4.2
    -- hashtable_delete(cache->index, tail->path)
    (r4.1.heap tail).bind fun t =>
    let m5 : Mem :=
      { r4.1 with c := { r4.1.c with index := hashtable_delete r4.1.c.index t.path } }
    -- free_entry(tail)
    free_entry m5 tail
  else
    some m3

/-- Retrieve an entry from the cache: `cache_get`.  Returns the new state and the pointer
handed back to the caller (`none` is `NULL`). -/
def cache_get (m : Mem) (path : String) : Option (Mem × Option Nat) :=
  match hashtable_get m.c.index path with
  | none => some (m, none)
  | some data =>
    (dllist_move_to_head m data).bind fun m1 =>
    some (m1, m1.c.head)

/-- A call of the public interface. -/
inductive Op where
  | put (path content_type : String) (content : List Nat) (content_length : Int)
  | get (path : String)

/-- One call of the public interface. -/
def step (m : Mem) : Op → Option Mem
  | .put path content_type content content_length =>
      cache_put m path content_type content content_length
  | .get path => (cache_get m path).map Prod.fst

/-- A finite sequence of calls, applied left to right. -/
def run (m : Mem) : List Op → Option Mem
  | [] => some m
  | op :: ops => (step m op).bind fun m1 => run m1 ops

/-- The entries met when following `next` from the pointer, at most `fuel` of them. -/
def walk (h : Nat → Option cache_entry) : Nat → Option Nat → List Nat
  | 0, _ => []
  | _ + 1, none => []
  | fuel + 1, some a =>
    match h a with
    | none => []
    | some e => a :: walk h fuel e.next

/-- The recency list read from `head`; `brk` bounds the number of allocated entries. -/
def cache_entries (m : Mem) : List Nat := walk m.heap m.brk m.c.head

/-- First cell of `l`, or `n` when `l` is empty. -/
def hd_or : List Nat → Option Nat → Option Nat
  | [], n => n
  | b :: _, _ => some b

/-- Last cell of `l`, or `p` when `l` is empty. -/
def last_or : List Nat → Option Nat → Option Nat
  | [], p => p
  | a :: l, _ => last_or l (some a)

/-- The cells `l` form a stretch of a doubly linked list in the heap: every cell is
allocated, its `prev` is the cell before it (`p` for the first) and its `next` is the cell
after it (`n` for the last). -/
def seg (h : Nat → Option cache_entry) : Option Nat → List Nat → Option Nat → Prop
  | _, [], _ => True
  | p, a :: l, n =>
    ∃ e, h a = some e ∧ e.prev = p ∧ e.next = hd_or l n ∧ seg h (some a) l n

/-- Well-formed recency list: the cache's list, read head to tail, is exactly `L`.
The cells are pairwise distinct (no cycle), the first has `prev = NULL`, the last has
`next = NULL`, neighbours agree on their links, `head` and `tail` are the two ends. -/
structure dllist (m : Mem) (L : List Nat) : Prop where
  nodup : L.Nodup
  links : seg m.heap none L none
  head : m.c.head = L.head?
  tail : m.c.tail = L.getLast?

/-- What an entry carries besides its links. -/
def payload (e : cache_entry) : String × String × Int × List Nat :=
  (e.path, e.content_type, e.content_length, e.content)

/-- The key of the entry at an address. -/
def path_at (m : Mem) (a : Nat) : Option String := (m.heap a).map fun e => e.path

/-- The second state differs from the first in `prev`/`next` links and in the `head` and
`tail` references only. -/
structure links_only (m m1 : Mem) : Prop where
  data : ∀ a, (m1.heap a).map payload = (m.heap a).map payload
  brk : m1.brk = m.brk
  freed : m1.freed = m.freed
  index : m1.c.index = m.c.index
  cur_size : m1.c.cur_size = m.c.cur_size
  max_size : m1.c.max_size = m.c.max_size

/-- Effect of `cache_put path content_type content content_length` on a state `m` whose
recency list is `L`, leading to the state `m1`. -/
structure put_post (m : Mem) (L : List Nat) (path content_type : String) (content : List Nat)
    (content_length : Int) (m1 : Mem) : Prop where
  list : dllist m1 ((m.brk :: L).take m.c.max_size.toNat)
  cur_size : m1.c.cur_size = ((m.brk :: L).take m.c.max_size.toNat).length
  max_size : m1.c.max_size = m.c.max_size
  brk : m1.brk = m.brk + 1
  entry : ∃ e, m1.heap m.brk = some e ∧
    payload e = (path, content_type, content_length, content.take content_length.toNat)
  data : ∀ a e, a ≠ m.brk → m1.heap a = some e → (m.heap a).map payload = some (payload e)
  keep : (L.length : Int) < m.c.max_size →
    m1.c.index = hashtable_put m.c.index path m.brk ∧ m1.freed = m.freed ∧
      ∀ a, a ≠ m.brk → (m1.heap a).map payload = (m.heap a).map payload
  evict : (L.length : Int) = m.c.max_size →
    ∃ t kt, L.getLast? = some t ∧ path_at m t = some kt ∧
      m1.c.index = hashtable_delete (hashtable_put m.c.index path m.brk) kt ∧
      m1.freed = t :: m.freed ∧ m1.heap t = none ∧
      ∀ a, a ≠ m.brk → a ≠ t → (m1.heap a).map payload = (m.heap a).map payload

/-- Invariant of the states reachable with a positive capacity: the recency list is the
well-formed list `L`, `cur_size` counts it and stays within `max_size`, nothing is allocated
at or above `brk`, and the index only refers to listed entries under their own key. -/
structure Inv (m : Mem) (L : List Nat) : Prop where
  list : dllist m L
  size : m.c.cur_size = L.length
  cap : m.c.cur_size ≤ m.c.max_size
  pos : 1 ≤ m.c.max_size
  fresh : ∀ a, m.brk ≤ a → m.heap a = none
  sound : ∀ k a, hashtable_get m.c.index k = some a → a ∈ L ∧ path_at m a = some k

/-- Every listed entry is the one the index associates with its key. -/
def indexed (m : Mem) (L : List Nat) : Prop :=
  ∀ a ∈ L, ∀ k, path_at m a = some k → hashtable_get m.c.index k = some a

/-- The cache holds one entry per key of `K` and nothing else, `K` being the keys of the
recency list read head to tail, and the index reaches each of these entries. -/
def holds (m : Mem) (K : List String) : Prop :=
  ∃ L, Inv m L ∧ indexed m L ∧ L.map (path_at m) = K.map some

/-- The calls `cache_put` for a list of arguments, in order. -/
def puts (args : List (String × String × List Nat × Int)) : List Op :=
  args.map fun x => Op.put x.1 x.2.1 x.2.2.1 x.2.2.2

/-- The calls `cache_get` for a list of keys, in order. -/
def gets (keys : List String) : List Op := keys.map Op.get

/-- A cache of capacity 5 after three puts, used to instantiate statements. -/
def sample : Mem :=
  (run (cache_create 5 0)
    [Op.put "/a" "text/html" [1] 1, Op.put "/b" "text/html" [2] 1,
     Op.put "/c" "text/css" [3, 4] 2]).getD (cache_create 5 0)

/-- No `cache_put` of the sequence uses a key that an entry of the recency list holds at
the time of the call. -/
def fresh_puts : Mem → List Op → Bool
  | _, [] => true
  | m, op :: ops =>
    (match op with
      | Op.put path _ _ _ => (cache_entries m).all fun a => path_at m a != some path
      | Op.get _ => true) &&
    (match step m op with
      | none => true
      | some m1 => fresh_puts m1 ops)

/-- A cache of capacity 2 after two puts of one key and a put of another key. -/
def dup_sample : Mem :=
  (run (cache_create 2 0)
    [Op.put "/a" "text/html" [1] 1, Op.put "/a" "text/html" [1] 1,
     Op.put "/b" "text/html" [2] 1]).getD (cache_create 2 0)

/-- State reachable from `cache_create` with a positive capacity by `cache_put` and
`cache_get` calls. -/
def Reachable (m : Mem) : Prop :=
  ∃ (max_size hashsize : Int) (ops : List Op),
    1 ≤ max_size ∧ run (cache_create max_size hashsize) ops = some m

/-- A cache of capacity 1 after one put: its recency list has one entry. -/
def single_sample : Mem :=
  (run (cache_create 1 0) [Op.put "/a" "text/html" [1] 1]).getD (cache_create 1 0)

/-- Modelled from the spec: `hashtable_destroy` of `hashtable.c` (absent): releases the
index and leaves the entries it refers to alone.  The released index is the empty one. -/
def hashtable_destroy (_ht : hashtable) : hashtable := []

/-- Modelled from the spec: `index.count`, the number of associations the index holds. -/
def hashtable_count (ht : hashtable) : Nat := ht.length

/-- The `while` loop of `cache_free`, for at most `fuel` iterations.  The result is `none`
when an access fails and also when the fuel runs out before `cur_entry` is `NULL`. -/
def cache_free_loop : Nat → Mem → Option Nat → Option Mem
  | _, m, none => some m
  | 0, _, some _ => none
  | fuel + 1, m, some cur_entry =>
    -- next_entry = cur_entry->next; free_entry(cur_entry); cur_entry = next_entry
    (get_next m.heap (some cur_entry)).bind fun next_entry =>
    (free_entry m cur_entry).bind fun m1 =>
    cache_free_loop fuel m1 next_entry

/-- Teardown: `cache_free`.  The final `free(cache)` releases the cache structure itself,
whose fields are kept in the result as they were at that point. -/
def cache_free (fuel : Nat) (m : Mem) : Option Mem :=
  -- cur_entry = cache->head; hashtable_destroy(cache->index)
  cache_free_loop fuel { m with c := { m.c with index := hashtable_destroy m.c.index } }
    m.c.head

/-- Number of `cache_put` calls in a sequence of calls. -/
def put_count : List Op → Nat
  | [] => 0
  | Op.put _ _ _ _ :: ops => put_count ops + 1
  | Op.get _ :: ops => put_count ops

/-- Accounting of the allocated entries: the addresses handed out so far are those of the
recency list `L` together with those in the log of freed entries, each of them once, and
every cell still allocated is on the list. -/
structure Acct (m : Mem) (L : List Nat) : Prop where
  perm : (L ++ m.freed).Perm (List.range m.brk)
  live : ∀ a e, m.heap a = some e → a ∈ L

/-! ## Key index -/

theorem hashtable_get_delete (ht : hashtable) (k key : String) :
    hashtable_get (hashtable_delete ht k) key = if k = key then none else hashtable_get ht key := by
  induction ht with
  | nil => simp [hashtable_delete, hashtable_get]
  | cons p ht ih =>
    obtain ⟨k1, v⟩ := p
    simp only [hashtable_delete, hashtable_get]
    split_ifs <;> simp_all [hashtable_get]

theorem hashtable_get_put (ht : hashtable) (k key : String) (v : Nat) :
    hashtable_get (hashtable_put ht k v) key = if k = key then some v else hashtable_get ht key := by
  by_cases h : k = key <;> simp [hashtable_put, hashtable_get, hashtable_get_delete, h]

/-! ## Segments of the linked list -/

theorem hd_or_none (l : List Nat) : hd_or l none = l.head? := by
  cases l <;> rfl

theorem last_or_append_singleton (l : List Nat) (a : Nat) (p : Option Nat) :
    last_or (l ++ [a]) p = some a := by
  induction l generalizing p with
  | nil => rfl
  | cons b l ih => simpa [last_or] using ih (some b)

theorem last_or_none (l : List Nat) : last_or l none = l.getLast? := by
  rcases List.eq_nil_or_concat l with h | ⟨l1, a, h⟩
  · subst h; rfl
  · subst h; simp [last_or_append_singleton]

theorem hd_or_append (l1 l2 : List Nat) (n : Option Nat) :
    hd_or (l1 ++ l2) n = hd_or l1 (hd_or l2 n) := by
  cases l1 <;> rfl

theorem seg_append (h : Nat → Option cache_entry) (l1 l2 : List Nat) (p n : Option Nat) :
    seg h p (l1 ++ l2) n ↔ seg h p l1 (hd_or l2 n) ∧ seg h (last_or l1 p) l2 n := by
  induction l1 generalizing p with
  | nil => simp [seg, last_or]
  | cons a l1 ih =>
    show (∃ e, h a = some e ∧ e.prev = p ∧ e.next = hd_or (l1 ++ l2) n ∧
            seg h (some a) (l1 ++ l2) n) ↔
         (∃ e, h a = some e ∧ e.prev = p ∧ e.next = hd_or l1 (hd_or l2 n) ∧
            seg h (some a) l1 (hd_or l2 n)) ∧ seg h (last_or l1 (some a)) l2 n
    rw [ih, hd_or_append]
    constructor
    · rintro ⟨e, h1, h2, h3, h4, h5⟩
      exact ⟨⟨e, h1, h2, h3, h4⟩, h5⟩
    · rintro ⟨⟨e, h1, h2, h3, h4⟩, h5⟩
      exact ⟨e, h1, h2, h3, h4, h5⟩

theorem seg_frame (h h1 : Nat → Option cache_entry) (l : List Nat) (p n : Option Nat)
    (hl : ∀ a ∈ l, h1 a = h a) (hs : seg h p l n) : seg h1 p l n := by
  induction l generalizing p with
  | nil => trivial
  | cons a l ih =>
    obtain ⟨e, h2, h3, h4, h5⟩ := hs
    refine ⟨e, ?_, h3, h4, ih _ (fun b hb => hl b (List.mem_cons_of_mem _ hb)) h5⟩
    rw [hl a (List.mem_cons_self _ _)]; exact h2

theorem seg_alloc (h : Nat → Option cache_entry) (l : List Nat) (p n : Option Nat)
    (hs : seg h p l n) : ∀ a ∈ l, ∃ e, h a = some e := by
  induction l generalizing p with
  | nil => simp
  | cons a l ih =>
    obtain ⟨e, h2, _, _, h5⟩ := hs
    intro b hb
    rcases List.mem_cons.1 hb with rfl | hb
    · exact ⟨e, h2⟩
    · exact ih _ h5 b hb

theorem seg_snoc (h : Nat → Option cache_entry) (l : List Nat) (a : Nat) (p n : Option Nat) :
    seg h p (l ++ [a]) n ↔
      seg h p l (some a) ∧ ∃ e, h a = some e ∧ e.prev = last_or l p ∧ e.next = n := by
  rw [seg_append]
  simp [seg, hd_or]

theorem seg_set_next_last (h : Nat → Option cache_entry) (l : List Nat) (x : Nat)
    (p n n1 : Option Nat) (ex : cache_entry) (hs : seg h p (l ++ [x]) n) (hx : x ∉ l)
    (hex : h x = some ex) :
    seg (Function.update h x (some { ex with next := n1 })) p (l ++ [x]) n1 := by
  rw [seg_snoc] at hs ⊢
  obtain ⟨h1, e, h2, h3, _⟩ := hs
  rw [hex] at h2
  cases h2
  refine ⟨seg_frame h _ l p _ ?_ h1, ?_⟩
  · intro a ha
    have : a ≠ x := fun hax => hx (hax ▸ ha)
    simp [Function.update_noteq this]
  · exact ⟨{ ex with next := n1 }, by simp, h3, rfl⟩

theorem seg_set_prev_first (h : Nat → Option cache_entry) (l : List Nat) (y : Nat)
    (p n p1 : Option Nat) (ey : cache_entry) (hs : seg h p (y :: l) n) (hy : y ∉ l)
    (hey : h y = some ey) :
    seg (Function.update h y (some { ey with prev := p1 })) p1 (y :: l) n := by
  obtain ⟨e, h2, _, h4, h5⟩ := hs
  rw [hey] at h2
  cases h2
  refine ⟨{ ey with prev := p1 }, by simp, rfl, h4, seg_frame h _ l _ _ ?_ h5⟩
  intro a ha
  have : a ≠ y := fun hay => hy (hay ▸ ha)
  simp [Function.update_noteq this]

/-! ## Field assignments keep the payloads -/

theorem set_next_some (h : Nat → Option cache_entry) (a : Nat) (v : Option Nat)
    (e : cache_entry) (he : h a = some e) :
    set_next h (some a) v = some (Function.update h a (some { e with next := v })) := by
  simp [set_next, he]

theorem set_prev_some (h : Nat → Option cache_entry) (a : Nat) (v : Option Nat)
    (e : cache_entry) (he : h a = some e) :
    set_prev h (some a) v = some (Function.update h a (some { e with prev := v })) := by
  simp [set_prev, he]

theorem set_next_data (h h1 : Nat → Option cache_entry) (p v : Option Nat)
    (hs : set_next h p v = some h1) (a : Nat) : (h1 a).map payload = (h a).map payload := by
  cases p with
  | none => simp [set_next] at hs
  | some b =>
    cases hb : h b with
    | none => simp [set_next, hb] at hs
    | some e =>
      rw [set_next_some h b v e hb] at hs
      cases hs
      by_cases hab : a = b
      · subst hab; simp [hb, payload]
      · simp [Function.update_noteq hab]

theorem set_prev_data (h h1 : Nat → Option cache_entry) (p v : Option Nat)
    (hs : set_prev h p v = some h1) (a : Nat) : (h1 a).map payload = (h a).map payload := by
  cases p with
  | none => simp [set_prev] at hs
  | some b =>
    cases hb : h b with
    | none => simp [set_prev, hb] at hs
    | some e =>
      rw [set_prev_some h b v e hb] at hs
      cases hs
      by_cases hab : a = b
      · subst hab; simp [hb, payload]
      · simp [Function.update_noteq hab]

theorem links_only_refl (m : Mem) : links_only m m :=
  ⟨fun _ => rfl, rfl, rfl, rfl, rfl, rfl⟩

theorem links_only_trans {m m1 m2 : Mem} (h1 : links_only m m1) (h2 : links_only m1 m2) :
    links_only m m2 :=
  ⟨fun a => (h2.data a).trans (h1.data a), h2.brk.trans h1.brk, h2.freed.trans h1.freed,
    h2.index.trans h1.index, h2.cur_size.trans h1.cur_size, h2.max_size.trans h1.max_size⟩

/-! ## The list operations change links only -/

theorem dllist_insert_head_frame (m m1 : Mem) (ce : Nat)
    (h : dllist_insert_head m ce = some m1) : links_only m m1 := by
  unfold dllist_insert_head at h
  split at h
  · simp only [Option.bind_eq_bind, Option.bind_eq_some] at h
    obtain ⟨h1, e1, h2, e2, e3⟩ := h
    cases e3
    exact ⟨fun a => (set_prev_data _ _ _ _ e2 a).trans (set_next_data _ _ _ _ e1 a),
      rfl, rfl, rfl, rfl, rfl⟩
  · simp only [Option.bind_eq_bind, Option.bind_eq_some] at h
    obtain ⟨h1, e1, h2, e2, h3, e3, e4⟩ := h
    cases e4
    exact ⟨fun a => ((set_prev_data _ _ _ _ e3 a).trans (set_next_data _ _ _ _ e2 a)).trans
      (set_prev_data _ _ _ _ e1 a), rfl, rfl, rfl, rfl, rfl⟩

theorem dllist_move_to_head_frame (m m1 : Mem) (ce : Nat)
    (h : dllist_move_to_head m ce = some m1) : links_only m m1 := by
  unfold dllist_move_to_head at h
  split at h
  · simp only [Option.bind_eq_bind, Option.bind_eq_some] at h
    obtain ⟨m2, e0, h3, e3, h4, e4, h5, e5, e6⟩ := h
    cases e6
    have hm2 : links_only m m2 := by
      split at e0
      · simp only [Option.bind_eq_bind, Option.bind_eq_some] at e0
        obtain ⟨t, _, h1, e1, e2⟩ := e0
        cases e2
        exact ⟨fun a => set_next_data _ _ _ _ e1 a, rfl, rfl, rfl, rfl, rfl⟩
      · simp only [Option.bind_eq_bind, Option.bind_eq_some] at e0
        obtain ⟨p, _, n, _, h1, e1, n1, _, p1, _, h2, e2, e7⟩ := e0
        cases e7
        exact ⟨fun a => (set_prev_data _ _ _ _ e2 a).trans (set_next_data _ _ _ _ e1 a),
          rfl, rfl, rfl, rfl, rfl⟩
    refine links_only_trans hm2 ⟨fun a => ?_, rfl, rfl, rfl, rfl, rfl⟩
    exact ((set_prev_data _ _ _ _ e5 a).trans (set_prev_data _ _ _ _ e4 a)).trans
      (set_next_data _ _ _ _ e3 a)
  · cases h
    exact links_only_refl m

theorem dllist_remove_tail_frame (m m1 : Mem) (t : Nat)
    (h : dllist_remove_tail m = some (m1, t)) :
    (∀ a, (m1.heap a).map payload = (m.heap a).map payload) ∧ m1.brk = m.brk ∧
      m1.freed = m.freed ∧ m1.c.index = m.c.index ∧ m1.c.cur_size = m.c.cur_size - 1 ∧
      m1.c.max_size = m.c.max_size ∧ m1.c.head = m.c.head ∧ m.c.tail = some t := by
  unfold dllist_remove_tail at h
  simp only [Option.bind_eq_some, Option.map_eq_some'] at h
  obtain ⟨t1, _, h1, e2, t2, e1, e3⟩ := h
  cases e3
  exact ⟨fun a => set_next_data _ _ _ _ e2 a, rfl, rfl, rfl, rfl, rfl, rfl, e1⟩

/-! ## The list operations on a well-formed list -/

theorem seg_link_head (h h1 : Nat → Option cache_entry) (ce hd : Nat) (l : List Nat)
    (p n : Option Nat) (ehd : cache_entry) (hs : seg h p (hd :: l) n) (hehd : h hd = some ehd)
    (hce : ∃ e, h1 ce = some e ∧ e.prev = none ∧ e.next = some hd)
    (hhd : h1 hd = some { ehd with prev := some ce })
    (hrest : ∀ a ∈ l, h1 a = h a) : seg h1 none (ce :: hd :: l) n := by
  obtain ⟨e, h1ce, hp, hn⟩ := hce
  obtain ⟨e1, he1, _, hnext, hseg⟩ := hs
  rw [hehd] at he1
  cases he1
  exact ⟨e, h1ce, hp, hn, { ehd with prev := some ce }, hhd, rfl, hnext,
    seg_frame h h1 l _ _ hrest hseg⟩

theorem dllist_insert_head_spec (m : Mem) (ce : Nat) (L : List Nat) (e : cache_entry)
    (hL : dllist m L) (hce : m.heap ce = some e) (hn : ce ∉ L) :
    ∃ m1, dllist_insert_head m ce = some m1 ∧ dllist m1 (ce :: L) := by
  cases L with
  | nil =>
    have hh : m.c.head = none := hL.head
    have e1 := set_next_some m.heap ce none e hce
    have e2 := set_prev_some (Function.update m.heap ce (some { e with next := none })) ce none
      { e with next := none } (by simp)
    refine ⟨_, by simp only [dllist_insert_head, hh, e1, e2, Option.some_bind]; rfl, ?_⟩
    exact ⟨by simp, ⟨{ e with prev := none, next := none }, by simp, rfl, rfl, trivial⟩,
      rfl, rfl⟩
  | cons x l =>
    have hh : m.c.head = some x := hL.head
    obtain ⟨ex, hx, _, _, _⟩ := id hL.links
    have hne : ce ≠ x := fun h => hn (h ▸ List.mem_cons_self _ _)
    have hxl : x ∉ l := (List.nodup_cons.1 hL.nodup).1
    have e1 := set_prev_some m.heap x (some ce) ex hx
    have e2 := set_next_some (Function.update m.heap x (some { ex with prev := some ce })) ce
      (some x) e (by simp [Function.update_noteq hne, hce])
    have e3 := set_prev_some (Function.update (Function.update m.heap x
      (some { ex with prev := some ce })) ce (some { e with next := some x })) ce none
      { e with next := some x } (by simp)
    refine ⟨_, by simp only [dllist_insert_head, hh, e1, e2, e3, Option.some_bind]; rfl, ?_⟩
    refine ⟨List.nodup_cons.2 ⟨hn, hL.nodup⟩, ?_, rfl, ?_⟩
    · refine seg_link_head m.heap _ ce x l none none ex hL.links hx
        ⟨{ e with next := some x, prev := none }, by simp, rfl, rfl⟩ ?_ ?_
      · simp [Function.update_noteq hne.symm]
      · intro a ha
        have h1 : a ≠ ce := fun h => hn (h ▸ List.mem_cons_of_mem _ ha)
        have h2 : a ≠ x := fun h => hxl (h ▸ ha)
        simp [Function.update_noteq h1, Function.update_noteq h2]
    · simpa using hL.tail

theorem seg_unlink_tail (h : Nat → Option cache_entry) (l : List Nat) (x ce : Nat)
    (hs : seg h none (l ++ [x] ++ [ce]) none) (hnd : (l ++ [x] ++ [ce]).Nodup) :
    ∃ ex ece, h x = some ex ∧ h ce = some ece ∧ ece.prev = some x ∧
      seg (Function.update h x (some { ex with next := none })) none (l ++ [x]) none := by
  rw [seg_snoc] at hs
  obtain ⟨h1, ece, hce, hp, _⟩ := hs
  rw [last_or_append_singleton] at hp
  have h2 := (seg_snoc h l x none (some ce)).1 h1
  obtain ⟨_, ex, hx, _, _⟩ := h2
  have hxl : x ∉ l := by
    have := hnd
    simp [List.nodup_append] at this
    tauto
  exact ⟨ex, ece, hx, hce, hp, seg_set_next_last h l x none (some ce) none ex h1 hxl hx⟩

theorem seg_unlink_mid (h : Nat → Option cache_entry) (l1 l2 : List Nat) (x ce y : Nat)
    (hs : seg h none (l1 ++ [x] ++ ce :: y :: l2) none)
    (hnd : (l1 ++ [x] ++ ce :: y :: l2).Nodup) :
    ∃ ex ece ey, h x = some ex ∧ h ce = some ece ∧ h y = some ey ∧ ece.prev = some x ∧
      ece.next = some y ∧
      seg (Function.update (Function.update h x (some { ex with next := some y })) y
        (some { ey with prev := some x })) none (l1 ++ [x] ++ y :: l2) none := by
  rw [seg_append] at hs
  obtain ⟨h1, h2⟩ := hs
  rw [last_or_append_singleton] at h2
  obtain ⟨ece, hce, hp, hnx, h3⟩ := h2
  obtain ⟨_, ex, hx, _, _⟩ := (seg_snoc h l1 x none _).1 h1
  obtain ⟨ey, hy, _, _, _⟩ := id h3
  have hnd1 := hnd
  simp [List.nodup_append] at hnd1
  have hxy : x ≠ y := by tauto
  have hxl1 : x ∉ l1 := by tauto
  have hyl2 : y ∉ l2 := by tauto
  refine ⟨ex, ece, ey, hx, hce, hy, hp, hnx, ?_⟩
  rw [seg_append, last_or_append_singleton]
  constructor
  · have h4 := seg_set_next_last h l1 x none _ (some y) ex h1 hxl1 hx
    refine seg_frame _ _ _ _ _ ?_ h4
    intro a ha
    have : a ≠ y := by
      rintro rfl
      simp at ha
      tauto
    simp [Function.update_noteq this]
  · have h5 : seg (Function.update h x (some { ex with next := some y })) (some ce) (y :: l2)
        none := by
      refine seg_frame _ _ _ _ _ ?_ h3
      intro a ha
      have : a ≠ x := by
        rintro rfl
        simp at ha
        tauto
      simp [Function.update_noteq this]
    exact seg_set_prev_first _ l2 y (some ce) none (some x) ey h5 hyl2
      (by simp [Function.update_noteq hxy.symm, hy])

theorem link_head_spec (m1 : Mem) (ce : Nat) (L : List Nat) (e : cache_entry)
    (hL : dllist m1 L) (hne : L ≠ []) (hce : m1.heap ce = some e) (hn : ce ∉ L) :
    ∃ m2, ((set_next m1.heap (some ce) m1.c.head).bind fun h3 =>
        (set_prev h3 m1.c.head (some ce)).bind fun h4 =>
        (set_prev h4 (some ce) none).bind fun h5 =>
        some { m1 with heap := h5, c := { m1.c with head := some ce } }) = some m2 ∧
      dllist m2 (ce :: L) := by
  cases L with
  | nil => exact absurd rfl hne
  | cons x l =>
    have hh : m1.c.head = some x := hL.head
    obtain ⟨ex, hx, _, _, _⟩ := id hL.links
    have hcx : ce ≠ x := fun h => hn (h ▸ List.mem_cons_self _ _)
    have hxl : x ∉ l := (List.nodup_cons.1 hL.nodup).1
    have e1 := set_next_some m1.heap ce (some x) e hce
    have e2 := set_prev_some (Function.update m1.heap ce (some { e with next := some x })) x
      (some ce) ex (by simp [Function.update_noteq hcx.symm, hx])
    have e3 := set_prev_some (Function.update (Function.update m1.heap ce
      (some { e with next := some x })) x (some { ex with prev := some ce })) ce none
      { e with next := some x } (by simp [Function.update_noteq hcx])
    refine ⟨_, by simp only [hh, e1, e2, e3, Option.some_bind]; rfl, ?_⟩
    refine ⟨List.nodup_cons.2 ⟨hn, hL.nodup⟩, ?_, rfl, ?_⟩
    · refine seg_link_head m1.heap _ ce x l none none ex hL.links hx
        ⟨{ e with next := some x, prev := none }, by simp, rfl, rfl⟩ ?_ ?_
      · simp [Function.update_noteq hcx.symm]
      · intro a ha
        have h1 : a ≠ ce := fun h => hn (h ▸ List.mem_cons_of_mem _ ha)
        have h2 : a ≠ x := fun h => hxl (h ▸ ha)
        simp [Function.update_noteq h1, Function.update_noteq h2]
    · simpa using hL.tail

theorem eq_nil_or_snoc (l : List Nat) : l = [] ∨ ∃ s x, l = s ++ [x] := by
  rcases List.eq_nil_or_concat l with h | ⟨s, x, h⟩
  · exact Or.inl h
  · exact Or.inr ⟨s, x, by simpa using h⟩

theorem head_append_cons_ne (s t : List Nat) (x ce : Nat) (hnd : (s ++ [x] ++ ce :: t).Nodup) :
    (s ++ [x] ++ ce :: t).head? ≠ some ce := by
  simp [List.nodup_append] at hnd
  cases s with
  | nil => simp; tauto
  | cons a s => simp at hnd ⊢; tauto

theorem dllist_move_to_head_spec (m : Mem) (ce : Nat) (L : List Nat) (hL : dllist m L)
    (hce : ce ∈ L) :
    ∃ m1, dllist_move_to_head m ce = some m1 ∧ dllist m1 (ce :: L.erase ce) ∧
      (L.head? = some ce → m1 = m) := by
  obtain ⟨s, t, rfl⟩ := List.append_of_mem hce
  have hnd := hL.nodup
  have hcs : ce ∉ s := by
    have := hnd
    simp [List.nodup_append] at this
    tauto
  have hct : ce ∉ t := by
    have := hnd
    simp [List.nodup_append] at this
    tauto
  have herase : (s ++ ce :: t).erase ce = s ++ t := by
    rw [List.erase_append_right _ hcs, List.erase_cons_head]
  rw [herase]
  rcases eq_nil_or_snoc s with rfl | ⟨s1, x, rfl⟩
  · have hh : m.c.head = some ce := hL.head
    refine ⟨m, by simp [dllist_move_to_head, hh], by simpa using hL, fun _ => rfl⟩
  · have hhne : some ce ≠ m.c.head := by
      rw [hL.head]
      exact (head_append_cons_ne s1 t x ce hnd).symm
    have hsnd : (s1 ++ [x] ++ t).Nodup := by
      have := hnd
      simp [List.nodup_append] at this ⊢
      tauto
    cases t with
    | nil =>
      have htl : some ce = m.c.tail := by rw [hL.tail]; simp
      obtain ⟨ex, ece, hx, hece, hp, hseg⟩ := seg_unlink_tail m.heap s1 x ce hL.links hnd
      have hxc : x ≠ ce := by
        rintro rfl
        simp at hcs
      have hgp : get_prev m.heap (some ce) = some (some x) := by simp [get_prev, hece, hp]
      have hsn := set_next_some m.heap x none ex hx
      have hd1 : dllist { m with heap := Function.update m.heap x (some { ex with next := none }),
                                 c := { m.c with tail := some x } } (s1 ++ [x]) := by
        refine ⟨by simpa using hsnd, hseg, ?_, by simp⟩
        show m.c.head = _
        rw [hL.head]
        cases s1 <;> simp
      obtain ⟨m2, h2, hd2⟩ := link_head_spec _ ce (s1 ++ [x]) ece hd1 (by simp)
        (by simp [Function.update_noteq hxc.symm, hece]) hcs
      refine ⟨m2, ?_, by simpa using hd2, ?_⟩
      · unfold dllist_move_to_head
        rw [if_pos hhne, if_pos htl]
        simp only [hgp, hsn, Option.some_bind]
        exact h2
      · intro h
        exact absurd h (head_append_cons_ne s1 [] x ce hnd)
    | cons y t =>
      have htl : ¬ some ce = m.c.tail := by
        rw [hL.tail]
        intro h
        have h1 : ce ∈ (y :: t) := by
          have h2 : (s1 ++ [x] ++ ce :: y :: t).getLast? = (y :: t).getLast? := by
            rw [List.getLast?_append_cons, List.getLast?_cons_cons]
          rw [h2] at h
          exact List.mem_of_getLast?_eq_some h.symm
        exact hct h1
      obtain ⟨ex, ece, ey, hx, hece, hy, hp, hnx, hseg⟩ :=
        seg_unlink_mid m.heap s1 t x ce y hL.links hnd
      have hxc : x ≠ ce := by
        rintro rfl
        simp at hcs
      have hyc : y ≠ ce := by
        rintro rfl
        simp at hct
      have hxy : x ≠ y := by
        rintro rfl
        have := hnd
        simp [List.nodup_append] at this
      have hgp : get_prev m.heap (some ce) = some (some x) := by simp [get_prev, hece, hp]
      have hgn : get_next m.heap (some ce) = some (some y) := by simp [get_next, hece, hnx]
      have hsn := set_next_some m.heap x (some y) ex hx
      have hgn1 : get_next (Function.update m.heap x (some { ex with next := some y }))
          (some ce) = some (some y) := by
        simp [get_next, Function.update_noteq hxc.symm, hece, hnx]
      have hgp1 : get_prev (Function.update m.heap x (some { ex with next := some y }))
          (some ce) = some (some x) := by
        simp [get_prev, Function.update_noteq hxc.symm, hece, hp]
      have hsp := set_prev_some (Function.update m.heap x (some { ex with next := some y })) y
        (some x) ey (by simp [Function.update_noteq hxy.symm, hy])
      have hd1 : dllist { m with heap := Function.update (Function.update m.heap x
          (some { ex with next := some y })) y (some { ey with prev := some x }) }
          (s1 ++ [x] ++ y :: t) := by
        refine ⟨hsnd, hseg, ?_, ?_⟩
        · show m.c.head = _
          rw [hL.head]
          cases s1 <;> simp
        · show m.c.tail = _
          rw [hL.tail, List.getLast?_append_cons, List.getLast?_cons_cons,
            List.getLast?_append_cons]
      obtain ⟨m2, h2, hd2⟩ := link_head_spec _ ce (s1 ++ [x] ++ y :: t) ece hd1 (by simp)
        (by simp [Function.update_noteq hxc.symm, Function.update_noteq hyc.symm, hece])
        (by simp at hcs hct ⊢; tauto)
      refine ⟨m2, ?_, hd2, ?_⟩
      · unfold dllist_move_to_head
        rw [if_pos hhne, if_neg htl]
        simp only [hgp, hgn, hsn, hgn1, hgp1, hsp, Option.some_bind]
        exact h2
      · intro h
        exact absurd h (head_append_cons_ne s1 (y :: t) x ce hnd)

theorem dllist_remove_tail_spec (m : Mem) (s : List Nat) (x t : Nat)
    (hL : dllist m (s ++ [x] ++ [t])) :
    ∃ m1, dllist_remove_tail m = some (m1, t) ∧ dllist m1 (s ++ [x]) ∧
      m1.heap t = m.heap t := by
  obtain ⟨ex, et, hx, het, hp, hseg⟩ := seg_unlink_tail m.heap s x t hL.links hL.nodup
  have htl : m.c.tail = some t := by rw [hL.tail]; simp
  have hxt : x ≠ t := by
    rintro rfl
    have := hL.nodup
    simp [List.nodup_append] at this
  have hgp : get_prev m.heap (some t) = some (some x) := by simp [get_prev, het, hp]
  have hsn := set_next_some m.heap x none ex hx
  refine ⟨_, by simp only [dllist_remove_tail, htl, hgp, hsn, Option.some_bind,
    Option.map_some']; rfl, ?_, ?_⟩
  · refine ⟨?_, hseg, ?_, by simp⟩
    · have := hL.nodup
      simp [List.nodup_append] at this ⊢
      tauto
    · show m.c.head = _
      rw [hL.head]
      cases s <;> simp
  · show Function.update m.heap x _ t = m.heap t
    simp [Function.update_noteq hxt.symm]

/-! ## `cache_put` and `cache_get` on a well-formed cache -/

theorem map_payload_some (o : Option cache_entry) (v : String × String × Int × List Nat)
    (h : o.map payload = some v) : ∃ e, o = some e ∧ payload e = v := by
  cases o with
  | none => simp at h
  | some e => exact ⟨e, rfl, by simpa using h⟩

theorem cache_put_spec (m : Mem) (L : List Nat) (k ct : String) (p : List Nat) (n : Int)
    (hL : dllist m L) (hsz : m.c.cur_size = L.length) (hcap : m.c.cur_size ≤ m.c.max_size)
    (hpos : 1 ≤ m.c.max_size) (hfresh : ∀ a, m.brk ≤ a → m.heap a = none) :
    ∃ m1, cache_put m k ct p n = some m1 ∧ put_post m L k ct p n m1 := by
  have hbrkL : m.brk ∉ L := by
    intro h
    obtain ⟨e, he⟩ := seg_alloc _ _ _ _ hL.links _ h
    rw [hfresh _ le_rfl] at he
    cases he
  have hd0 : dllist (alloc_entry m k ct p n).1 L := by
    refine ⟨hL.nodup, seg_frame m.heap _ L _ _ ?_ hL.links, hL.head, hL.tail⟩
    intro a ha
    have : a ≠ m.brk := fun h => hbrkL (h ▸ ha)
    simp [alloc_entry, Function.update_noteq this]
  have ha0 : (alloc_entry m k ct p n).1.heap m.brk =
      some { path := k, content_type := ct, content := p.take n.toNat, content_length := n,
             prev := none, next := none } := by
    simp [alloc_entry]
  obtain ⟨m2, h2, hd2⟩ := dllist_insert_head_spec _ m.brk L _ hd0 ha0 hbrkL
  have hf2 := dllist_insert_head_frame _ _ _ h2
  have hpay : (m2.heap m.brk).map payload = some (k, ct, n, p.take n.toNat) := by
    rw [hf2.data, ha0]; rfl
  obtain ⟨e2, he2, hpe2⟩ := map_payload_some _ _ hpay
  have hk : e2.path = k := congrArg Prod.fst hpe2
  have hc2 : m2.c.cur_size = L.length := hf2.cur_size.trans hsz
  have hx2 : m2.c.max_size = m.c.max_size := hf2.max_size
  have hi2 : m2.c.index = m.c.index := hf2.index
  have hb2 : m2.brk = m.brk + 1 := hf2.brk
  have hfr2 : m2.freed = m.freed := hf2.freed
  have hdata2 : ∀ a, a ≠ m.brk → (m2.heap a).map payload = (m.heap a).map payload := by
    intro a ha
    rw [hf2.data]
    simp [alloc_entry, Function.update_noteq ha]
  unfold cache_put
  simp only [show (alloc_entry m k ct p n).2 = m.brk from rfl, h2, he2, Option.some_bind]
  by_cases hlt : (L.length : Int) < m.c.max_size
  · have hng : ¬ (m2.c.cur_size + 1 > m2.c.max_size) := by rw [hc2, hx2]; omega
    rw [if_neg hng]
    have htake : (m.brk :: L).take m.c.max_size.toNat = m.brk :: L := by
      apply List.take_of_length_le
      simp only [List.length_cons]
      omega
    refine ⟨_, rfl, ?_⟩
    refine ⟨?_, ?_, hx2, hb2, ⟨e2, he2, hpe2⟩, ?_, ?_, ?_⟩
    · rw [htake]
      exact ⟨hd2.nodup, hd2.links, hd2.head, hd2.tail⟩
    · show m2.c.cur_size + 1 = _
      rw [htake, hc2]
      simp
    · intro a e ha h
      rw [← hdata2 a ha]
      show (m2.heap a).map payload = _
      rw [h]
      rfl
    · intro _
      refine ⟨?_, hfr2, hdata2⟩
      show hashtable_put m2.c.index e2.path m.brk = _
      rw [hi2, hk]
    · intro h
      omega
  · have heq : (L.length : Int) = m.c.max_size := by omega
    have hgt : m2.c.cur_size + 1 > m2.c.max_size := by rw [hc2, hx2]; omega
    rw [if_pos hgt]
    obtain ⟨s, t, rfl⟩ : ∃ s t, L = s ++ [t] := by
      rcases eq_nil_or_snoc L with rfl | h
      · simp at heq; omega
      · exact h
    obtain ⟨s1, x, hs1⟩ : ∃ s1 x, m.brk :: s = s1 ++ [x] := by
      rcases eq_nil_or_snoc (m.brk :: s) with h | h
      · cases h
      · exact h
    have hlist : m.brk :: (s ++ [t]) = s1 ++ [x] ++ [t] := by
      rw [← hs1]; rfl
    have htake : (m.brk :: (s ++ [t])).take m.c.max_size.toNat = s1 ++ [x] := by
      rw [hlist]
      apply List.take_left'
      have := congrArg List.length hs1
      simp at this heq
      simp
      omega
    have htb : t ≠ m.brk := by
      rintro rfl
      simp at hbrkL
    have hts : t ∉ s1 ++ [x] := by
      have := hd2.nodup
      rw [hlist] at this
      simp [List.nodup_append] at this ⊢
      tauto
    have hd3 : dllist { m2 with c := { m2.c with
        index := hashtable_put m2.c.index e2.path m.brk,
        cur_size := m2.c.cur_size + 1 } } (s1 ++ [x] ++ [t]) := by
      rw [← hlist]
      exact ⟨hd2.nodup, hd2.links, hd2.head, hd2.tail⟩
    obtain ⟨m4, h4, hd4, hh4⟩ := dllist_remove_tail_spec _ s1 x t hd3
    obtain ⟨hdat4, hb4, hfr4, hi4, hc4, hx4, _, _⟩ := dllist_remove_tail_frame _ _ _ h4
    obtain ⟨et, het⟩ := seg_alloc _ _ _ _ hL.links t (by simp)
    have hpt : (m4.heap t).map payload = some (payload et) := by
      rw [hh4]
      show (m2.heap t).map payload = _
      rw [hdata2 t htb, het]
      rfl
    obtain ⟨e4, he4, hpe4⟩ := map_payload_some _ _ hpt
    have hkt : e4.path = et.path := congrArg Prod.fst hpe4
    simp only [h4, he4, Option.some_bind, free_entry]
    refine ⟨_, rfl, ?_⟩
    refine ⟨?_, ?_, hx4.trans hx2, hb4.trans hb2, ?_, ?_, ?_, ?_⟩
    · rw [htake]
      refine ⟨hd4.nodup, seg_frame m4.heap _ _ _ _ ?_ hd4.links, hd4.head, hd4.tail⟩
      intro a ha
      have : a ≠ t := fun h => hts (h ▸ ha)
      simp [Function.update_noteq this]
    · show m4.c.cur_size = _
      rw [htake, hc4]
      show m2.c.cur_size + 1 - 1 = _
      rw [hc2]
      have := congrArg List.length hs1
      simp at this ⊢
      omega
    · have h1 : (m4.heap m.brk).map payload = some (k, ct, n, p.take n.toNat) := by
        rw [hdat4]
        exact hpay
      obtain ⟨e5, he5, hpe5⟩ := map_payload_some _ _ h1
      refine ⟨e5, ?_, hpe5⟩
      show Function.update m4.heap t none m.brk = _
      rw [Function.update_noteq htb.symm]
      exact he5
    · intro a e ha h
      have h1 : Function.update m4.heap t none a = some e := h
      by_cases hat : a = t
      · subst hat
        simp at h1
      · rw [Function.update_noteq hat] at h1
        rw [← hdata2 a ha, ← hdat4 a, h1]
        rfl
    · intro h
      omega
    · intro _
      refine ⟨t, et.path, by simp, by simp [path_at, het], ?_, ?_, ?_, ?_⟩
      · show hashtable_delete m4.c.index e4.path = _
        rw [hi4, hkt]
        show hashtable_delete (hashtable_put m2.c.index e2.path m.brk) et.path = _
        rw [hi2, hk]
      · show t :: m4.freed = _
        rw [hfr4]
        show t :: m2.freed = _
        rw [hfr2]
      · show Function.update m4.heap t none t = none
        simp
      · intro a ha hat
        show (Function.update m4.heap t none a).map payload = _
        rw [Function.update_noteq hat, hdat4 a]
        exact hdata2 a ha

theorem path_at_payload (m : Mem) (a : Nat) :
    path_at m a = ((m.heap a).map payload).map Prod.fst := by
  unfold path_at
  cases m.heap a <;> rfl

theorem path_at_congr (m m1 : Mem) (a : Nat)
    (h : (m1.heap a).map payload = (m.heap a).map payload) : path_at m1 a = path_at m a := by
  rw [path_at_payload, path_at_payload, h]

theorem take_cons_snoc (b t : Nat) (s : List Nat) (n : Nat) (hn : n = (s ++ [t]).length) :
    (b :: (s ++ [t])).take n = b :: s := by
  subst hn
  have : b :: (s ++ [t]) = (b :: s) ++ [t] := rfl
  rw [this]
  apply List.take_left'
  simp

theorem cache_put_inv (m : Mem) (L : List Nat) (k ct : String) (p : List Nat) (n : Int)
    (hI : Inv m L) :
    ∃ m1, cache_put m k ct p n = some m1 ∧ put_post m L k ct p n m1 ∧
      Inv m1 ((m.brk :: L).take m.c.max_size.toNat) := by
  obtain ⟨m1, h1, hp⟩ := cache_put_spec m L k ct p n hI.list hI.size hI.cap hI.pos hI.fresh
  refine ⟨m1, h1, hp, hp.list, hp.cur_size, ?_, ?_, ?_, ?_⟩
  · rw [hp.cur_size, hp.max_size]
    have := List.length_take_le m.c.max_size.toNat (m.brk :: L)
    have h2 := hI.pos
    omega
  · rw [hp.max_size]
    exact hI.pos
  · intro a ha
    cases h : m1.heap a with
    | none => rfl
    | some e =>
      have hab : a ≠ m.brk := by
        have := hp.brk
        omega
      have h2 := hp.data a e hab h
      rw [hI.fresh a (by have := hp.brk; omega)] at h2
      simp at h2
  · have hbrkL : m.brk ∉ L := by
      intro h
      obtain ⟨e, he⟩ := seg_alloc _ _ _ _ hI.list.links _ h
      rw [hI.fresh _ le_rfl] at he
      cases he
    have hsz := hI.size
    have hcap := hI.cap
    have hpos := hI.pos
    obtain ⟨e, he, hpe⟩ := hp.entry
    have hpb : path_at m1 m.brk = some k := by
      simp only [path_at, he, Option.map_some']
      exact congrArg some (congrArg Prod.fst hpe)
    have hbm : m.brk ∈ (m.brk :: L).take m.c.max_size.toNat := by
      obtain ⟨j, hj⟩ : ∃ j, m.c.max_size.toNat = j + 1 := ⟨m.c.max_size.toNat - 1, by omega⟩
      rw [hj]
      simp
    intro k1 a hget
    by_cases hlt : (L.length : Int) < m.c.max_size
    · obtain ⟨hidx, _, hdat⟩ := hp.keep hlt
      have htake : (m.brk :: L).take m.c.max_size.toNat = m.brk :: L := by
        apply List.take_of_length_le
        simp only [List.length_cons]
        omega
      rw [hidx, hashtable_get_put] at hget
      rw [htake]
      by_cases hk : k = k1
      · rw [if_pos hk] at hget
        cases hget
        exact ⟨List.mem_cons_self _ _, hk ▸ hpb⟩
      · rw [if_neg hk] at hget
        obtain ⟨h2, h3⟩ := hI.sound k1 a hget
        have hab : a ≠ m.brk := fun h => hbrkL (h ▸ h2)
        exact ⟨List.mem_cons_of_mem _ h2, (path_at_congr m m1 a (hdat a hab)).trans h3⟩
    · have heq : (L.length : Int) = m.c.max_size := by omega
      obtain ⟨t, kt, hlast, hpt, hidx, _, _, hdat⟩ := hp.evict heq
      obtain ⟨s, rfl⟩ := List.getLast?_eq_some_iff.1 hlast
      have htake : (m.brk :: (s ++ [t])).take m.c.max_size.toNat = m.brk :: s :=
        take_cons_snoc _ _ _ _ (by omega)
      rw [hidx, hashtable_get_delete, hashtable_get_put] at hget
      rw [htake]
      by_cases hkt : kt = k1
      · rw [if_pos hkt] at hget
        cases hget
      · rw [if_neg hkt] at hget
        by_cases hk : k = k1
        · rw [if_pos hk] at hget
          cases hget
          exact ⟨List.mem_cons_self _ _, hk ▸ hpb⟩
        · rw [if_neg hk] at hget
          obtain ⟨h2, h3⟩ := hI.sound k1 a hget
          have hab : a ≠ m.brk := fun h => hbrkL (h ▸ h2)
          have hat : a ≠ t := by
            rintro rfl
            rw [hpt] at h3
            exact hkt (Option.some.inj h3)
          refine ⟨?_, (path_at_congr m m1 a (hdat a hab hat)).trans h3⟩
          simp at h2 ⊢
          tauto

theorem cache_get_miss (m : Mem) (k : String) (h : hashtable_get m.c.index k = none) :
    cache_get m k = some (m, none) := by
  simp [cache_get, h]

theorem cache_get_hit (m : Mem) (L : List Nat) (k : String) (a : Nat) (hL : dllist m L)
    (ha : a ∈ L) (h : hashtable_get m.c.index k = some a) :
    ∃ m1, cache_get m k = some (m1, some a) ∧ dllist m1 (a :: L.erase a) ∧
      links_only m m1 ∧ dllist_move_to_head m a = some m1 := by
  obtain ⟨m1, h1, hd1, _⟩ := dllist_move_to_head_spec m a L hL ha
  refine ⟨m1, ?_, hd1, dllist_move_to_head_frame m m1 a h1, h1⟩
  simp only [cache_get, h, h1, Option.some_bind]
  rw [hd1.head]
  rfl

theorem links_only_inv (m m1 : Mem) (L L1 : List Nat) (hI : Inv m L) (hf : links_only m m1)
    (hd : dllist m1 L1) (hlen : L1.length = L.length) (hsub : ∀ a ∈ L, a ∈ L1) :
    Inv m1 L1 := by
  refine ⟨hd, ?_, ?_, ?_, ?_, ?_⟩
  · rw [hf.cur_size, hI.size, hlen]
  · rw [hf.cur_size, hf.max_size]
    exact hI.cap
  · rw [hf.max_size]
    exact hI.pos
  · intro a ha
    have h1 := hf.data a
    rw [hI.fresh a (by rw [← hf.brk]; exact ha)] at h1
    cases h2 : m1.heap a with
    | none => rfl
    | some e => rw [h2] at h1; simp at h1
  · intro k a hget
    rw [hf.index] at hget
    obtain ⟨h2, h3⟩ := hI.sound k a hget
    exact ⟨hsub a h2, (path_at_congr m m1 a (hf.data a)).trans h3⟩

theorem cache_get_inv (m : Mem) (L : List Nat) (k : String) (hI : Inv m L) :
    ∃ m1 r L1, cache_get m k = some (m1, r) ∧ Inv m1 L1 ∧ links_only m m1 ∧
      r = hashtable_get m.c.index k ∧
      L1 = (match r with | none => L | some a => a :: L.erase a) := by
  cases h : hashtable_get m.c.index k with
  | none =>
    exact ⟨m, none, L, cache_get_miss m k h, hI, links_only_refl m, rfl, rfl⟩
  | some a =>
    obtain ⟨haL, _⟩ := hI.sound k a h
    obtain ⟨m1, h1, hd1, hf, _⟩ := cache_get_hit m L k a hI.list haL h
    refine ⟨m1, some a, _, h1, ?_, hf, rfl, rfl⟩
    refine links_only_inv m m1 L _ hI hf hd1 ?_ ?_
    · rw [List.length_cons, List.length_erase_of_mem haL]
      have : 0 < L.length := List.length_pos_of_mem haL
      omega
    · intro b hb
      by_cases hba : b = a
      · subst hba
        exact List.mem_cons_self _ _
      · exact List.mem_cons_of_mem _ ((List.mem_erase_of_ne hba).2 hb)

theorem cache_create_inv (max_size hashsize : Int) (h : 1 ≤ max_size) :
    Inv (cache_create max_size hashsize) [] := by
  refine ⟨⟨List.nodup_nil, trivial, rfl, rfl⟩, rfl, ?_, h, fun _ _ => rfl, ?_⟩
  · show (0 : Int) ≤ max_size
    omega
  · intro k a hget
    simp [cache_create, hashtable_create, hashtable_get] at hget

theorem step_inv (m : Mem) (L : List Nat) (op : Op) (hI : Inv m L) :
    ∃ m1 L1, step m op = some m1 ∧ Inv m1 L1 ∧ m1.c.max_size = m.c.max_size := by
  cases op with
  | put k ct p n =>
    obtain ⟨m1, h1, hp, hI1⟩ := cache_put_inv m L k ct p n hI
    exact ⟨m1, _, h1, hI1, hp.max_size⟩
  | get k =>
    obtain ⟨m1, r, L1, h1, hI1, hf, _, _⟩ := cache_get_inv m L k hI
    exact ⟨m1, L1, by simp [step, h1], hI1, hf.max_size⟩

theorem run_inv (m : Mem) (L : List Nat) (ops : List Op) (hI : Inv m L) :
    ∃ m1 L1, run m ops = some m1 ∧ Inv m1 L1 ∧ m1.c.max_size = m.c.max_size := by
  induction ops generalizing m L with
  | nil => exact ⟨m, L, rfl, hI, rfl⟩
  | cons op ops ih =>
    obtain ⟨m1, L1, h1, hI1, hx1⟩ := step_inv m L op hI
    obtain ⟨m2, L2, h2, hI2, hx2⟩ := ih m1 L1 hI1
    exact ⟨m2, L2, by simp [run, h1, h2], hI2, hx2.trans hx1⟩

theorem reachable_inv (m : Mem) (h : Reachable m) : ∃ L, Inv m L := by
  obtain ⟨max_size, hashsize, ops, hpos, hrun⟩ := h
  obtain ⟨m1, L1, h1, hI1, _⟩ := run_inv _ [] ops (cache_create_inv max_size hashsize hpos)
  rw [hrun] at h1
  cases h1
  exact ⟨L1, hI1⟩

/-! ## Reading the list back -/

theorem walk_seg (h : Nat → Option cache_entry) (L : List Nat) (p : Option Nat) (fuel : Nat)
    (hs : seg h p L none) (hf : L.length ≤ fuel) : walk h fuel (hd_or L none) = L := by
  induction L generalizing p fuel with
  | nil => cases fuel <;> simp [walk, hd_or]
  | cons a l ih =>
    obtain ⟨e, he, _, hnext, hseg⟩ := hs
    cases fuel with
    | zero => simp at hf
    | succ f =>
      have hl : l.length ≤ f := by simpa using hf
      show walk h (f + 1) (some a) = a :: l
      simp only [walk, he, hnext]
      rw [ih (some a) f hseg hl]

theorem dllist_walk (m : Mem) (L : List Nat) (fuel : Nat) (hL : dllist m L)
    (hf : L.length ≤ fuel) : walk m.heap fuel m.c.head = L := by
  rw [hL.head, ← hd_or_none]
  exact walk_seg m.heap L none fuel hL.links hf

theorem dllist_unique (m : Mem) (L L1 : List Nat) (hL : dllist m L) (hL1 : dllist m L1) :
    L = L1 := by
  have h1 := dllist_walk m L (max L.length L1.length) hL (le_max_left _ _)
  have h2 := dllist_walk m L1 (max L.length L1.length) hL1 (le_max_right _ _)
  exact h1.symm.trans h2

theorem inv_lt_brk (m : Mem) (L : List Nat) (hI : Inv m L) : ∀ a ∈ L, a < m.brk := by
  intro a ha
  by_contra hlt
  obtain ⟨e, he⟩ := seg_alloc _ _ _ _ hI.list.links a ha
  rw [hI.fresh a (by omega)] at he
  cases he

theorem inv_length_le (m : Mem) (L : List Nat) (hI : Inv m L) : L.length ≤ m.brk := by
  have hsub : L ⊆ List.range m.brk := fun a ha => List.mem_range.2 (inv_lt_brk m L hI a ha)
  have := (List.subperm_of_subset hI.list.nodup hsub).length_le
  simpa using this

theorem cache_entries_eq (m : Mem) (L : List Nat) (hI : Inv m L) : cache_entries m = L :=
  dllist_walk m L m.brk hI.list (inv_length_le m L hI)

/-! ## Keys along the recency list -/

theorem map_erase_of_inj_on {β : Type} [DecidableEq β] (f : Nat → β) (L : List Nat) (a : Nat)
    (h : ∀ b ∈ L, f b = f a → b = a) : (L.erase a).map f = (L.map f).erase (f a) := by
  induction L with
  | nil => rfl
  | cons b l ih =>
    by_cases hba : b = a
    · subst hba
      simp
    · have hf : f b ≠ f a := fun hfa => hba (h b (List.mem_cons_self _ _) hfa)
      rw [List.erase_cons_tail (by simpa using hba), List.map_cons, List.map_cons,
        List.erase_cons_tail (by simpa using hf),
        ih (fun c hc => h c (List.mem_cons_of_mem _ hc))]

theorem put_keys (m m1 : Mem) (L : List Nat) (k ct : String) (p : List Nat) (n : Int)
    (hI : Inv m L) (hp : put_post m L k ct p n m1) :
    ((m.brk :: L).take m.c.max_size.toNat).map (path_at m1) =
      (some k :: L.map (path_at m)).take m.c.max_size.toNat := by
  have hbrkL : m.brk ∉ L := fun h => absurd (inv_lt_brk m L hI _ h) (lt_irrefl _)
  have hsz := hI.size
  have hcap := hI.cap
  have hpos := hI.pos
  obtain ⟨e, he, hpe⟩ := hp.entry
  have hpb : path_at m1 m.brk = some k := by
    simp only [path_at, he, Option.map_some']
    exact congrArg some (congrArg Prod.fst hpe)
  by_cases hlt : (L.length : Int) < m.c.max_size
  · obtain ⟨_, _, hdat⟩ := hp.keep hlt
    rw [List.take_of_length_le (by simp only [List.length_cons]; omega),
      List.take_of_length_le (by simp only [List.length_cons, List.length_map]; omega),
      List.map_cons, hpb]
    congr 1
    apply List.map_congr_left
    intro a ha
    exact path_at_congr m m1 a (hdat a (fun h => hbrkL (h ▸ ha)))
  · have heq : (L.length : Int) = m.c.max_size := by omega
    obtain ⟨t, kt, hlast, _, _, _, _, hdat⟩ := hp.evict heq
    obtain ⟨s, rfl⟩ := List.getLast?_eq_some_iff.1 hlast
    have hn : m.c.max_size.toNat = s.length + 1 := by
      simp at heq
      omega
    have hts : t ∉ s := by
      have := hI.list.nodup
      simp [List.nodup_append] at this
      tauto
    rw [take_cons_snoc _ _ _ _ (by simp; omega), List.map_cons, hpb, hn, List.take_succ_cons,
      List.map_append, List.take_left' (by simp)]
    congr 1
    apply List.map_congr_left
    intro a ha
    exact path_at_congr m m1 a (hdat a (fun h => hbrkL (h ▸ by simp [ha]))
      (fun h => hts (h ▸ ha)))

theorem cache_put_indexed (m m1 : Mem) (L : List Nat) (k ct : String) (p : List Nat) (n : Int)
    (hI : Inv m L) (hx : indexed m L) (hk : ∀ a ∈ L, path_at m a ≠ some k)
    (hp : put_post m L k ct p n m1) :
    indexed m1 ((m.brk :: L).take m.c.max_size.toNat) := by
  have hbrkL : m.brk ∉ L := fun h => absurd (inv_lt_brk m L hI _ h) (lt_irrefl _)
  have hsz := hI.size
  obtain ⟨e, he, hpe⟩ := hp.entry
  have hpb : path_at m1 m.brk = some k := by
    simp only [path_at, he, Option.map_some']
    exact congrArg some (congrArg Prod.fst hpe)
  intro a ha k1 hk1
  have hmem : a ∈ m.brk :: L := List.mem_of_mem_take ha
  have hold : a ≠ m.brk → a ∈ L ∧ path_at m a = some k1 := by
    intro hab
    have haL : a ∈ L := by simpa [hab] using hmem
    obtain ⟨e1, he1⟩ := seg_alloc _ _ _ _ hp.list.links a ha
    have h2 := hp.data a e1 hab he1
    refine ⟨haL, ?_⟩
    rw [path_at_payload, h2]
    have h3 : path_at m1 a = some e1.path := by simp [path_at, he1]
    rw [h3] at hk1
    simpa [payload] using hk1
  by_cases hlt : (L.length : Int) < m.c.max_size
  · obtain ⟨hidx, _, _⟩ := hp.keep hlt
    rw [hidx, hashtable_get_put]
    by_cases hab : a = m.brk
    · subst hab
      rw [hpb] at hk1
      cases hk1
      simp
    · obtain ⟨haL, hpa⟩ := hold hab
      have hkk : k ≠ k1 := fun h => hk a haL (h ▸ hpa)
      rw [if_neg hkk]
      exact hx a haL k1 hpa
  · have heq : (L.length : Int) = m.c.max_size := by
      have := hI.cap
      omega
    obtain ⟨t, kt, hlast, hpt, hidx, _, _, _⟩ := hp.evict heq
    obtain ⟨s, rfl⟩ := List.getLast?_eq_some_iff.1 hlast
    have htL : t ∈ s ++ [t] := by simp
    have hktk : kt ≠ k := fun h => hk t htL (h ▸ hpt)
    have hts : t ∉ s := by
      have := hI.list.nodup
      simp [List.nodup_append] at this
      tauto
    rw [hidx, hashtable_get_delete, hashtable_get_put]
    rw [take_cons_snoc _ _ _ _ (by simp at heq ⊢; omega)] at ha
    by_cases hab : a = m.brk
    · subst hab
      rw [hpb] at hk1
      cases hk1
      rw [if_neg hktk, if_pos rfl]
    · obtain ⟨haL, hpa⟩ := hold hab
      have hkk : k ≠ k1 := fun h => hk a haL (h ▸ hpa)
      have has : a ∈ s := by simpa [hab] using ha
      have hkt1 : kt ≠ k1 := by
        rintro rfl
        have h1 := hx t htL kt hpt
        rw [hx a haL kt hpa] at h1
        cases h1
        exact hts has
      rw [if_neg hkt1, if_neg hkk]
      exact hx a haL k1 hpa

theorem links_only_indexed (m m1 : Mem) (L L1 : List Nat) (hf : links_only m m1)
    (hsub : ∀ b ∈ L1, b ∈ L) (hx : indexed m L) : indexed m1 L1 := by
  intro a ha k hk
  rw [hf.index]
  rw [path_at_congr m m1 a (hf.data a)] at hk
  exact hx a (hsub a ha) k hk

/-! ## The cache seen as a list of keys -/

theorem holds_create (max_size hashsize : Int) (h : 1 ≤ max_size) :
    holds (cache_create max_size hashsize) [] :=
  ⟨[], cache_create_inv max_size hashsize h, fun _ ha => absurd ha (List.not_mem_nil _), rfl⟩

theorem holds_lookup (m : Mem) (K : List String) (k : String) (h : holds m K) :
    (k ∉ K → hashtable_get m.c.index k = none) ∧
      (k ∈ K → ∃ a, hashtable_get m.c.index k = some a) := by
  obtain ⟨L, hI, hx, hK⟩ := h
  constructor
  · intro hk
    cases hg : hashtable_get m.c.index k with
    | none => rfl
    | some a =>
      obtain ⟨haL, hpa⟩ := hI.sound k a hg
      have : some k ∈ L.map (path_at m) := hpa ▸ List.mem_map_of_mem _ haL
      rw [hK] at this
      simp at this
      exact absurd this hk
  · intro hk
    have : some k ∈ L.map (path_at m) := by
      rw [hK]
      exact List.mem_map_of_mem _ hk
    obtain ⟨a, haL, hpa⟩ := List.mem_map.1 this
    exact ⟨a, hx a haL k hpa⟩

theorem holds_miss (m : Mem) (K : List String) (k : String) (h : holds m K) (hk : k ∉ K) :
    cache_get m k = some (m, none) :=
  cache_get_miss m k ((holds_lookup m K k h).1 hk)

theorem holds_hit (m : Mem) (K : List String) (k : String) (h : holds m K) (hk : k ∈ K) :
    ∃ m1 a, cache_get m k = some (m1, some a) ∧ path_at m1 a = some k ∧
      holds m1 (k :: K.erase k) ∧ links_only m m1 := by
  obtain ⟨a, hg⟩ := (holds_lookup m K k h).2 hk
  obtain ⟨L, hI, hx, hK⟩ := h
  obtain ⟨haL, hpa⟩ := hI.sound k a hg
  obtain ⟨m1, hget, hd1, hf, _⟩ := cache_get_hit m L k a hI.list haL hg
  have hsub : ∀ b ∈ a :: L.erase a, b ∈ L := by
    intro b hb
    rcases List.mem_cons.1 hb with rfl | hb
    · exact haL
    · exact List.mem_of_mem_erase hb
  have hI1 : Inv m1 (a :: L.erase a) := by
    refine links_only_inv m m1 L _ hI hf hd1 ?_ ?_
    · rw [List.length_cons, List.length_erase_of_mem haL]
      have : 0 < L.length := List.length_pos_of_mem haL
      omega
    · intro b hb
      by_cases hba : b = a
      · subst hba
        exact List.mem_cons_self _ _
      · exact List.mem_cons_of_mem _ ((List.mem_erase_of_ne hba).2 hb)
  have hp1 : path_at m1 a = some k := (path_at_congr m m1 a (hf.data a)).trans hpa
  refine ⟨m1, a, hget, hp1, ⟨a :: L.erase a, hI1, links_only_indexed m m1 L _ hf hsub hx, ?_⟩,
    hf⟩
  have hcongr : (a :: L.erase a).map (path_at m1) = (a :: L.erase a).map (path_at m) :=
    List.map_congr_left fun b _ => path_at_congr m m1 b (hf.data b)
  have hinj : ∀ b ∈ L, path_at m b = path_at m a → b = a := by
    intro b hb hba
    have h1 := hx b hb k (hba.trans hpa)
    rw [hg] at h1
    exact (Option.some.inj h1).symm
  rw [hcongr, List.map_cons, map_erase_of_inj_on (path_at m) L a hinj, hK, hpa, List.map_cons,
    List.map_erase (Option.some_injective String)]

theorem holds_put (m : Mem) (K : List String) (k ct : String) (p : List Nat) (n : Int)
    (h : holds m K) (hk : k ∉ K) :
    ∃ m1, cache_put m k ct p n = some m1 ∧ holds m1 ((k :: K).take m.c.max_size.toNat) ∧
      m1.c.max_size = m.c.max_size := by
  obtain ⟨L, hI, hx, hK⟩ := h
  obtain ⟨m1, hput, hp, hI1⟩ := cache_put_inv m L k ct p n hI
  have hfresh : ∀ a ∈ L, path_at m a ≠ some k := by
    intro a ha hpa
    have : some k ∈ L.map (path_at m) := hpa ▸ List.mem_map_of_mem _ ha
    rw [hK] at this
    simp at this
    exact hk this
  refine ⟨m1, hput, ⟨_, hI1, cache_put_indexed m m1 L k ct p n hI hx hfresh hp, ?_⟩,
    hp.max_size⟩
  rw [put_keys m m1 L k ct p n hI hp, hK, List.map_take, List.map_cons]

/-! ## Sequences of calls -/

theorem run_append (m : Mem) (xs ys : List Op) :
    run m (xs ++ ys) = (run m xs).bind fun m1 => run m1 ys := by
  induction xs generalizing m with
  | nil => rfl
  | cons x xs ih =>
    simp only [List.cons_append, run]
    cases step m x with
    | none => rfl
    | some m1 => exact ih m1

theorem take_append_take {α : Type} (X Y : List α) (N : Nat) :
    (X ++ Y.take N).take N = (X ++ Y).take N := by
  rw [List.take_append_eq_append_take, List.take_append_eq_append_take, List.take_take]
  congr 2
  omega

theorem run_puts_holds (m : Mem) (K : List String)
    (args : List (String × String × List Nat × Int)) (h : holds m K)
    (hnd : (args.map Prod.fst).Nodup) (hdisj : ∀ x ∈ args, x.1 ∉ K) :
    ∃ m1, run m (puts args) = some m1 ∧
      holds m1 (((args.map Prod.fst).reverse ++ K).take m.c.max_size.toNat) ∧
      m1.c.max_size = m.c.max_size := by
  induction args generalizing m K with
  | nil =>
    obtain ⟨L, hI, hx, hK⟩ := h
    refine ⟨m, rfl, ⟨L, hI, hx, ?_⟩, rfl⟩
    have hlen : K.length ≤ m.c.max_size.toNat := by
      have h1 := congrArg List.length hK
      have h2 := hI.size
      have h3 := hI.cap
      simp at h1
      omega
    simpa [List.take_of_length_le hlen] using hK
  | cons x args ih =>
    have hxK : x.1 ∉ K := hdisj x (List.mem_cons_self _ _)
    obtain ⟨m1, hput, hh1, hmax1⟩ := holds_put m K x.1 x.2.1 x.2.2.1 x.2.2.2 h hxK
    have hnd1 : (args.map Prod.fst).Nodup := (List.nodup_cons.1 hnd).2
    have hxa : x.1 ∉ args.map Prod.fst := (List.nodup_cons.1 hnd).1
    have hdisj1 : ∀ y ∈ args, y.1 ∉ (x.1 :: K).take m.c.max_size.toNat := by
      intro y hy hmem
      rcases List.mem_cons.1 (List.mem_of_mem_take hmem) with h1 | h1
      · exact hxa (h1 ▸ List.mem_map_of_mem _ hy)
      · exact hdisj y (List.mem_cons_of_mem _ hy) h1
    obtain ⟨m2, hrun, hh2, hmax2⟩ := ih m1 _ hh1 hnd1 hdisj1
    refine ⟨m2, ?_, ?_, hmax2.trans hmax1⟩
    · show run m (Op.put x.1 x.2.1 x.2.2.1 x.2.2.2 :: puts args) = some m2
      simp only [run, step, hput, Option.some_bind]
      exact hrun
    · rw [hmax1, take_append_take] at hh2
      simpa using hh2

theorem run_gets_holds (m : Mem) (K : List String) (keys : List String) (h : holds m K) :
    ∃ m1 K1, run m (gets keys) = some m1 ∧ holds m1 K1 ∧ (∀ k, k ∈ K1 ↔ k ∈ K) ∧
      links_only m m1 := by
  induction keys generalizing m K with
  | nil => exact ⟨m, K, rfl, h, fun _ => Iff.rfl, links_only_refl m⟩
  | cons k keys ih =>
    by_cases hk : k ∈ K
    · obtain ⟨m1, a, hget, _, hh1, hf1⟩ := holds_hit m K k h hk
      obtain ⟨m2, K2, hrun, hh2, hmem, hf2⟩ := ih m1 _ hh1
      refine ⟨m2, K2, ?_, hh2, ?_, links_only_trans hf1 hf2⟩
      · show run m (Op.get k :: gets keys) = some m2
        simp only [run, step, hget, Option.map_some', Option.some_bind]
        exact hrun
      · intro k1
        rw [hmem k1, List.mem_cons]
        constructor
        · rintro (rfl | h1)
          · exact hk
          · exact List.mem_of_mem_erase h1
        · intro h1
          by_cases hkk : k1 = k
          · exact Or.inl hkk
          · exact Or.inr ((List.mem_erase_of_ne hkk).2 h1)
    · have hget := holds_miss m K k h hk
      obtain ⟨m2, K2, hrun, hh2, hmem, hf2⟩ := ih m K h
      refine ⟨m2, K2, ?_, hh2, hmem, hf2⟩
      show run m (Op.get k :: gets keys) = some m2
      simp only [run, step, hget, Option.map_some', Option.some_bind]
      exact hrun

/-! ## The claims -/

/-- C1: capacity invariant.  For every cache created by `cache_create` with
`max_size ≥ 1` and every finite sequence of `cache_put` and `cache_get` calls, after each
call (after the first `i` calls, for every `i`) the run has completed, `0 ≤ cur_size ≤
max_size` with `max_size` the capacity given at creation, and `cur_size` is the number of
entries on the recency list, which is the well-formed list read from `head`. -/
theorem capacity_invariant (max_size hashsize : Int) (ops : List Op) (i : Nat)
    (h : 1 ≤ max_size) :
    ∃ m, run (cache_create max_size hashsize) (ops.take i) = some m ∧
      0 ≤ m.c.cur_size ∧ m.c.cur_size ≤ m.c.max_size ∧ m.c.max_size = max_size ∧
      dllist m (cache_entries m) ∧ m.c.cur_size = (cache_entries m).length := by
  obtain ⟨m, L, hrun, hI, hmax⟩ :=
    run_inv _ [] (ops.take i) (cache_create_inv max_size hashsize h)
  have hL := cache_entries_eq m L hI
  refine ⟨m, hrun, ?_, hI.cap, hmax, ?_, ?_⟩
  · rw [hI.size]
    exact Int.natCast_nonneg _
  · rw [hL]
    exact hI.list
  · rw [hL]
    exact hI.size

theorem capacity_invariant_witness :
    (1 : Int) ≤ 2 ∧
    ∃ m, run (cache_create 2 0)
        ([Op.put "/a" "text/html" [104, 105] 2, Op.put "/b" "text/plain" [] 0, Op.get "/a",
          Op.put "/a" "text/html" [1] 1, Op.get "/c"].take 4) = some m ∧
      0 ≤ m.c.cur_size ∧ m.c.cur_size ≤ m.c.max_size ∧ m.c.max_size = 2 ∧
      dllist m (cache_entries m) ∧ m.c.cur_size = (cache_entries m).length :=
  ⟨by decide, capacity_invariant 2 0 _ 4 (by decide)⟩

/-- C2: LRU eviction order.  For every capacity `max_size ≥ 1` and every `max_size + 1`
puts with pairwise distinct keys (`first`, then `rest`) into a fresh cache, with no
`cache_get` in between, the calls complete and exactly the first-inserted key is evicted:
afterwards, also after any further `cache_get` calls `later`, `cache_get` of the first key
returns not-found and leaves the state as it is, and `cache_get` of every other key hits,
returning an entry stored under that key. -/
theorem lru_eviction_order (max_size hashsize : Int) (first : String × String × List Nat × Int)
    (rest : List (String × String × List Nat × Int)) (later : List String)
    (hpos : 1 ≤ max_size) (hlen : (rest.length : Int) = max_size)
    (hnd : ((first :: rest).map Prod.fst).Nodup) :
    ∃ m, run (cache_create max_size hashsize) (puts (first :: rest) ++ gets later) = some m ∧
      cache_get m first.1 = some (m, none) ∧
      ∀ x ∈ rest, ∃ m1 a, cache_get m x.1 = some (m1, some a) ∧ path_at m1 a = some x.1 := by
  obtain ⟨m0, hrun0, hh0, _⟩ := run_puts_holds _ [] (first :: rest)
    (holds_create max_size hashsize hpos) hnd (fun _ _ => List.not_mem_nil _)
  have hN : (cache_create max_size hashsize).c.max_size.toNat = rest.length := by
    show max_size.toNat = rest.length
    omega
  have hK : (((first :: rest).map Prod.fst).reverse ++ []).take
      (cache_create max_size hashsize).c.max_size.toNat = (rest.map Prod.fst).reverse := by
    rw [hN, List.append_nil, List.map_cons, List.reverse_cons]
    exact List.take_left' (by simp)
  rw [hK] at hh0
  obtain ⟨m, K1, hrun1, hh1, hmem, _⟩ := run_gets_holds m0 _ later hh0
  have hfirst : first.1 ∉ K1 := by
    rw [hmem, List.mem_reverse]
    exact (List.nodup_cons.1 hnd).1
  refine ⟨m, ?_, holds_miss m K1 first.1 hh1 hfirst, ?_⟩
  · rw [run_append, hrun0]
    exact hrun1
  · intro x hx
    have hxK : x.1 ∈ K1 := by
      rw [hmem, List.mem_reverse]
      exact List.mem_map_of_mem _ hx
    obtain ⟨m1, a, hget, hpa, _, _⟩ := holds_hit m K1 x.1 hh1 hxK
    exact ⟨m1, a, hget, hpa⟩

theorem lru_eviction_order_witness :
    (1 : Int) ≤ 2 ∧ (([("/b", "text/html", [2], 1), ("/c", "text/css", [3, 4], 2)] :
        List (String × String × List Nat × Int)).length : Int) = 2 ∧
    ((("/a", "text/html", [1], 1) :: [("/b", "text/html", [2], 1),
        ("/c", "text/css", [3, 4], 2)] :
        List (String × String × List Nat × Int)).map Prod.fst).Nodup ∧
    ∃ m, run (cache_create 2 0)
        (puts (("/a", "text/html", [1], 1) ::
          [("/b", "text/html", [2], 1), ("/c", "text/css", [3, 4], 2)]) ++ gets ["/b"]) =
          some m ∧
      cache_get m "/a" = some (m, none) ∧
      ∀ x ∈ ([("/b", "text/html", [2], 1), ("/c", "text/css", [3, 4], 2)] :
          List (String × String × List Nat × Int)),
        ∃ m1 a, cache_get m x.1 = some (m1, some a) ∧ path_at m1 a = some x.1 :=
  ⟨by decide, by decide, by decide,
    lru_eviction_order 2 0 ("/a", "text/html", [1], 1)
      [("/b", "text/html", [2], 1), ("/c", "text/css", [3, 4], 2)] ["/b"]
      (by decide) (by decide) (by decide)⟩

/-- C3, as amended: a get protects its key when the capacity is at least 2.  For every
capacity `max_size ≥ 2`, every `max_size` puts with pairwise distinct keys into a fresh
cache and every key `k` among them, calling `cache_get k` immediately before putting one
more key, distinct from all of them, leaves `k` in the cache: the calls complete and
`cache_get k` hits after that put, returning an entry stored under `k`. -/
theorem get_protects_key (max_size hashsize : Int)
    (args : List (String × String × List Nat × Int)) (k : String)
    (new : String × String × List Nat × Int)
    (hcap : 2 ≤ max_size) (hlen : (args.length : Int) = max_size)
    (hnd : ((new :: args).map Prod.fst).Nodup) (hk : k ∈ args.map Prod.fst) :
    ∃ m m1 a, run (cache_create max_size hashsize) (puts args ++ gets [k] ++ puts [new]) =
        some m ∧
      cache_get m k = some (m1, some a) ∧ path_at m1 a = some k := by
  obtain ⟨m0, hrun0, hh0, hmax0⟩ := run_puts_holds _ [] args
    (holds_create max_size hashsize (by omega)) (List.nodup_cons.1 hnd).2
    (fun _ _ => List.not_mem_nil _)
  have hN : (cache_create max_size hashsize).c.max_size.toNat = args.length := by
    show max_size.toNat = args.length
    omega
  have hK : ((args.map Prod.fst).reverse ++ []).take
      (cache_create max_size hashsize).c.max_size.toNat = (args.map Prod.fst).reverse := by
    rw [hN, List.append_nil]
    exact List.take_of_length_le (by simp)
  rw [hK] at hh0
  have hkK : k ∈ (args.map Prod.fst).reverse := List.mem_reverse.2 hk
  obtain ⟨m1, a, hget1, _, hh1, hf1⟩ := holds_hit m0 _ k hh0 hkK
  have hnew : new.1 ∉ k :: ((args.map Prod.fst).reverse).erase k := by
    have h1 : new.1 ∉ args.map Prod.fst := (List.nodup_cons.1 hnd).1
    intro h2
    rcases List.mem_cons.1 h2 with h3 | h3
    · exact h1 (h3 ▸ hk)
    · exact h1 (List.mem_reverse.1 (List.mem_of_mem_erase h3))
  obtain ⟨m2, hput2, hh2, _⟩ := holds_put m1 _ new.1 new.2.1 new.2.2.1 new.2.2.2 hh1 hnew
  have hmax1 : m1.c.max_size.toNat = (max_size.toNat - 2) + 2 := by
    rw [hf1.max_size, hmax0]
    show max_size.toNat = _
    omega
  rw [hmax1] at hh2
  have hk2 : k ∈ (new.1 :: k :: ((args.map Prod.fst).reverse).erase k).take
      (max_size.toNat - 2 + 2) := by
    simp
  obtain ⟨m3, a3, hget3, hpa3, _, _⟩ := holds_hit m2 _ k hh2 hk2
  refine ⟨m2, m3, a3, ?_, hget3, hpa3⟩
  rw [run_append, run_append, hrun0]
  simp only [Option.some_bind, gets, puts, List.map_cons, List.map_nil, run, step, hget1,
    Option.map_some', hput2]

theorem get_protects_key_witness :
    (2 : Int) ≤ 2 ∧ (([("/a", "text/html", [1], 1), ("/b", "text/html", [2], 1)] :
        List (String × String × List Nat × Int)).length : Int) = 2 ∧
    ((("/c", "text/css", [3, 4], 2) :: [("/a", "text/html", [1], 1),
        ("/b", "text/html", [2], 1)] :
        List (String × String × List Nat × Int)).map Prod.fst).Nodup ∧
    "/a" ∈ ([("/a", "text/html", [1], 1), ("/b", "text/html", [2], 1)] :
        List (String × String × List Nat × Int)).map Prod.fst ∧
    ∃ m m1 a, run (cache_create 2 0)
        (puts [("/a", "text/html", [1], 1), ("/b", "text/html", [2], 1)] ++ gets ["/a"] ++
          puts [("/c", "text/css", [3, 4], 2)]) = some m ∧
      cache_get m "/a" = some (m1, some a) ∧ path_at m1 a = some "/a" :=
  ⟨by decide, by decide, by decide, by decide,
    get_protects_key 2 0 [("/a", "text/html", [1], 1), ("/b", "text/html", [2], 1)] "/a"
      ("/c", "text/css", [3, 4], 2) (by decide) (by decide) (by decide) (by decide)⟩

/-- C3 as stated fails at capacity 1: after `put /a`, `get /a`, `put /b` on a fresh cache
of capacity 1 (one key put, distinct from the new one), `cache_get /a` returns not-found. -/
theorem get_protects_key_counterexample :
    (1 : Int) ≤ 1 ∧ (([("/a", "text/html", [1], 1)] :
        List (String × String × List Nat × Int)).length : Int) = 1 ∧
    ((("/b", "text/html", [2], 1) :: [("/a", "text/html", [1], 1)] :
        List (String × String × List Nat × Int)).map Prod.fst).Nodup ∧
    "/a" ∈ ([("/a", "text/html", [1], 1)] :
        List (String × String × List Nat × Int)).map Prod.fst ∧
    ∃ m, run (cache_create 1 0)
        (puts [("/a", "text/html", [1], 1)] ++ gets ["/a"] ++
          puts [("/b", "text/html", [2], 1)]) = some m ∧
      cache_get m "/a" = some (m, none) := by
  refine ⟨by decide, by decide, by decide, by decide, ?_⟩
  obtain ⟨m1, hp1, hh1, hx1⟩ :=
    holds_put _ [] "/a" "text/html" [1] 1 (holds_create 1 0 (by decide)) (by simp)
  change holds m1 ["/a"] at hh1
  obtain ⟨m2, a, hg2, _, hh2, hf2⟩ := holds_hit m1 _ "/a" hh1 (by simp)
  change holds m2 ["/a"] at hh2
  obtain ⟨m3, hp3, hh3, _⟩ := holds_put m2 _ "/b" "text/html" [2] 1 hh2 (by decide)
  have hmax : m2.c.max_size.toNat = 1 := by
    rw [hf2.max_size, hx1]
    rfl
  rw [hmax] at hh3
  change holds m3 ["/b"] at hh3
  refine ⟨m3, ?_, holds_miss m3 _ "/a" hh3 (by decide)⟩
  simp only [puts, gets, List.map_cons, List.map_nil, List.cons_append, List.nil_append, run,
    step, hp1, hg2, hp3, Option.some_bind, Option.map_some']

theorem sample_dllist : dllist sample [2, 1, 0] :=
  ⟨by decide, ⟨_, rfl, rfl, rfl, _, rfl, rfl, rfl, _, rfl, rfl, rfl, trivial⟩, rfl, rfl⟩

theorem sample_reachable : Reachable sample :=
  ⟨5, 0, [Op.put "/a" "text/html" [1] 1, Op.put "/b" "text/html" [2] 1,
     Op.put "/c" "text/css" [3, 4] 2], by decide, rfl⟩

/-- C4: promotion correctness.  For every well-formed recency list `L` (read head to tail)
and every entry `e` on it, wherever it sits, `dllist_move_to_head` completes and the list
becomes `e :: (L with e removed)`: `e` is the head and the other entries keep their
relative order (they are `L` filtered by `≠ e`); only links and `head`/`tail` change; when
`e` is already the head the state is unchanged; and `cache_get` on a key the index
associates with `e` does exactly this and returns `e`. -/
theorem promotion_correct (m : Mem) (L : List Nat) (e : Nat) (hL : dllist m L) (he : e ∈ L) :
    ∃ m1, dllist_move_to_head m e = some m1 ∧ dllist m1 (e :: L.erase e) ∧
      m1.c.head = some e ∧ L.erase e = L.filter (fun x => x != e) ∧ links_only m m1 ∧
      (L.head? = some e → m1 = m) ∧
      ∀ k, hashtable_get m.c.index k = some e → cache_get m k = some (m1, some e) := by
  obtain ⟨m1, h1, hd1, hhead⟩ := dllist_move_to_head_spec m e L hL he
  refine ⟨m1, h1, hd1, hd1.head, hL.nodup.erase_eq_filter e,
    dllist_move_to_head_frame m m1 e h1, hhead, ?_⟩
  intro k hk
  simp only [cache_get, hk, h1, Option.some_bind]
  rw [hd1.head]
  rfl

theorem promotion_correct_witness :
    dllist sample [2, 1, 0] ∧ 1 ∈ [2, 1, 0] ∧
    ∃ m1, dllist_move_to_head sample 1 = some m1 ∧ dllist m1 (1 :: [2, 1, 0].erase 1) ∧
      m1.c.head = some 1 ∧ [2, 1, 0].erase 1 = [2, 1, 0].filter (fun x => x != 1) ∧
      links_only sample m1 ∧
      (([2, 1, 0] : List Nat).head? = some 1 → m1 = sample) ∧
      ∀ k, hashtable_get sample.c.index k = some 1 → cache_get sample k = some (m1, some 1) :=
  ⟨sample_dllist, by decide, promotion_correct sample [2, 1, 0] 1 sample_dllist (by decide)⟩

/-- C5: round trip.  For every cache reachable from `cache_create` (`max_size ≥ 1`) by
put/get calls whose `cur_size` is below `max_size`, and every key `k`, content type `ct`
and payload `p` of length `n`, `cache_put k ct p n` followed immediately by `cache_get k`
completes and returns an entry whose `path` is `k`, whose `content_type` is `ct`, whose
`content_length` is `n` and whose `content` is `p`. -/
theorem put_get_round_trip (m : Mem) (k ct : String) (p : List Nat) (n : Int)
    (hr : Reachable m) (hlt : m.c.cur_size < m.c.max_size) (hn : (p.length : Int) = n) :
    ∃ m1 m2 a e, cache_put m k ct p n = some m1 ∧ cache_get m1 k = some (m2, some a) ∧
      m2.heap a = some e ∧ e.path = k ∧ e.content_type = ct ∧ e.content_length = n ∧
      e.content = p := by
  obtain ⟨L, hI⟩ := reachable_inv m hr
  obtain ⟨m1, hput, hp, hI1⟩ := cache_put_inv m L k ct p n hI
  have hsz := hI.size
  obtain ⟨hidx, _, _⟩ := hp.keep (by omega)
  have hg : hashtable_get m1.c.index k = some m.brk := by
    rw [hidx, hashtable_get_put, if_pos rfl]
  obtain ⟨hmem, _⟩ := hI1.sound k m.brk hg
  obtain ⟨m2, hget, _, hf, _⟩ := cache_get_hit m1 _ k m.brk hI1.list hmem hg
  obtain ⟨e1, he1, hpe1⟩ := hp.entry
  have h2 : (m2.heap m.brk).map payload = some (k, ct, n, p.take n.toNat) := by
    rw [hf.data, he1]
    exact congrArg some hpe1
  obtain ⟨e2, he2, hpe2⟩ := map_payload_some _ _ h2
  have htake : p.take n.toNat = p := List.take_of_length_le (by omega)
  rw [htake] at hpe2
  exact ⟨m1, m2, m.brk, e2, hput, hget, he2, congrArg Prod.fst hpe2,
    congrArg (fun x => x.2.1) hpe2, congrArg (fun x => x.2.2.1) hpe2,
    congrArg (fun x => x.2.2.2) hpe2⟩

theorem put_get_round_trip_witness :
    Reachable sample ∧ sample.c.cur_size < sample.c.max_size ∧
    ((([104, 105, 33] : List Nat).length : Int) = 3) ∧
    ∃ m1 m2 a e, cache_put sample "/d" "text/plain" [104, 105, 33] 3 = some m1 ∧
      cache_get m1 "/d" = some (m2, some a) ∧
      m2.heap a = some e ∧ e.path = "/d" ∧ e.content_type = "text/plain" ∧
      e.content_length = 3 ∧ e.content = [104, 105, 33] :=
  ⟨sample_reachable, by decide, by decide,
    put_get_round_trip sample "/d" "text/plain" [104, 105, 33] 3 sample_reachable
      (by decide) (by decide)⟩

/-- C6: capacity-2 scenario.  On a fresh cache with `max_size` 2 and distinct keys `a`,
`b`, `c`, `d` (any contents; that `a` differs from `d` is not needed), after `put a`,
`put b`, `put c` the calls `get a`, `get b`, `get c` return, in that order, not-found, a
hit and a hit; after then calling `get b` and `put d`, `get c` returns not-found while
`get b` and `get d` both hit.  Every hit returns an entry stored under the requested key,
every miss leaves the state as it is. -/
theorem capacity_two_scenario (hashsize : Int) (a b c d : String)
    (va vb vc vd : String × List Nat × Int)
    (hab : a ≠ b) (hac : a ≠ c) (hbc : b ≠ c) (hbd : b ≠ d) (hcd : c ≠ d) :
    ∃ m3 m4 m5 m7 m8 m9 xb xc yb yd,
      run (cache_create 2 hashsize)
        [Op.put a va.1 va.2.1 va.2.2, Op.put b vb.1 vb.2.1 vb.2.2,
         Op.put c vc.1 vc.2.1 vc.2.2] = some m3 ∧
      cache_get m3 a = some (m3, none) ∧
      cache_get m3 b = some (m4, some xb) ∧ path_at m4 xb = some b ∧
      cache_get m4 c = some (m5, some xc) ∧ path_at m5 xc = some c ∧
      run m5 [Op.get b, Op.put d vd.1 vd.2.1 vd.2.2] = some m7 ∧
      cache_get m7 c = some (m7, none) ∧
      cache_get m7 b = some (m8, some yb) ∧ path_at m8 yb = some b ∧
      cache_get m8 d = some (m9, some yd) ∧ path_at m9 yd = some d := by
  have h0 := holds_create 2 hashsize (by decide)
  obtain ⟨m1, hp1, hh1, hx1⟩ := holds_put _ [] a va.1 va.2.1 va.2.2 h0 (by simp)
  change holds m1 [a] at hh1
  change m1.c.max_size = 2 at hx1
  obtain ⟨m2, hp2, hh2, hx2⟩ := holds_put m1 _ b vb.1 vb.2.1 vb.2.2 hh1 (by simp [hab.symm])
  rw [hx1] at hh2 hx2
  change holds m2 [b, a] at hh2
  obtain ⟨m3, hp3, hh3, hx3⟩ := holds_put m2 _ c vc.1 vc.2.1 vc.2.2 hh2
    (by simp [hac.symm, hbc.symm])
  rw [hx2] at hh3 hx3
  change holds m3 [c, b] at hh3
  have hg3 := holds_miss m3 _ a hh3 (by simp [hac, hab])
  obtain ⟨m4, xb, hg4, hpb4, hh4, hf4⟩ := holds_hit m3 _ b hh3 (by simp)
  have he4 : b :: [c, b].erase b = [b, c] := by simp [List.erase_cons, hbc.symm]
  rw [he4] at hh4
  obtain ⟨m5, xc, hg5, hpc5, hh5, hf5⟩ := holds_hit m4 _ c hh4 (by simp)
  have he5 : c :: [b, c].erase c = [c, b] := by simp [List.erase_cons, hbc]
  rw [he5] at hh5
  obtain ⟨m6, zb, hg6, _, hh6, hf6⟩ := holds_hit m5 _ b hh5 (by simp)
  rw [he4] at hh6
  obtain ⟨m7, hp7, hh7, hx7⟩ := holds_put m6 _ d vd.1 vd.2.1 vd.2.2 hh6
    (by simp [hbd.symm, hcd.symm])
  have hx6 : m6.c.max_size = 2 := by
    rw [hf6.max_size, hf5.max_size, hf4.max_size, hx3]
  rw [hx6] at hh7
  change holds m7 [d, b] at hh7
  have hg7 := holds_miss m7 _ c hh7 (by simp [hcd, hbc.symm])
  obtain ⟨m8, yb, hg8, hpb8, hh8, _⟩ := holds_hit m7 _ b hh7 (by simp)
  have he8 : b :: [d, b].erase b = [b, d] := by simp [List.erase_cons, hbd.symm]
  rw [he8] at hh8
  obtain ⟨m9, yd, hg9, hpd9, _, _⟩ := holds_hit m8 _ d hh8 (by simp)
  refine ⟨m3, m4, m5, m7, m8, m9, xb, xc, yb, yd, ?_, hg3, hg4, hpb4, hg5, hpc5, ?_, hg7, hg8,
    hpb8, hg9, hpd9⟩
  · simp only [run, step, hp1, hp2, hp3, Option.some_bind]
  · simp only [run, step, hg6, hp7, Option.some_bind, Option.map_some']

theorem capacity_two_scenario_witness :
    ("/a" : String) ≠ "/b" ∧ ("/a" : String) ≠ "/c" ∧
    ("/b" : String) ≠ "/c" ∧ ("/b" : String) ≠ "/d" ∧ ("/c" : String) ≠ "/d" ∧
    ∃ m3 m4 m5 m7 m8 m9 xb xc yb yd,
      run (cache_create 2 0)
        [Op.put "/a" "text/html" [1] 1, Op.put "/b" "text/html" [2] 1,
         Op.put "/c" "text/css" [3, 4] 2] = some m3 ∧
      cache_get m3 "/a" = some (m3, none) ∧
      cache_get m3 "/b" = some (m4, some xb) ∧ path_at m4 xb = some "/b" ∧
      cache_get m4 "/c" = some (m5, some xc) ∧ path_at m5 xc = some "/c" ∧
      run m5 [Op.get "/b", Op.put "/d" "text/plain" [] 0] = some m7 ∧
      cache_get m7 "/c" = some (m7, none) ∧
      cache_get m7 "/b" = some (m8, some yb) ∧ path_at m8 yb = some "/b" ∧
      cache_get m8 "/d" = some (m9, some yd) ∧ path_at m9 yd = some "/d" :=
  ⟨by decide, by decide, by decide, by decide, by decide,
    capacity_two_scenario 0 "/a" "/b" "/c" "/d" ("text/html", [1], 1) ("text/html", [2], 1)
      ("text/css", [3, 4], 2) ("text/plain", [], 0)
      (by decide) (by decide) (by decide) (by decide) (by decide)⟩

/-- C7: effect of put on the recency list.  For every reachable cache with
`max_size ≥ 1` whose recency list is `L` (head first), `cache_put k ct p n` completes and
yields the list made of the first `max_size` elements of `e :: L`, where `e` is a newly
created entry (its address was not allocated before) carrying `k`, `ct`, `n` and the first
`n` bytes of `p`; `e` is the new head.  When `|L| < max_size` nothing is removed, `cur_size`
becomes `|L| + 1` and the index only gains the association of `k`; when `|L| = max_size`
exactly one entry, the old tail, is removed and freed, its key is deleted from the index,
and `cur_size` stays `max_size`.  No other case arises. -/
theorem put_effect_on_list (m : Mem) (L : List Nat) (k ct : String) (p : List Nat) (n : Int)
    (hr : Reachable m) (hL : dllist m L) :
    ∃ m1 e, cache_put m k ct p n = some m1 ∧
      dllist m1 ((m.brk :: L).take m.c.max_size.toNat) ∧
      m1.c.head = some m.brk ∧ m.heap m.brk = none ∧ m1.heap m.brk = some e ∧
      e.path = k ∧ e.content_type = ct ∧ e.content_length = n ∧
      e.content = p.take n.toNat ∧
      ((L.length : Int) < m.c.max_size ∨ (L.length : Int) = m.c.max_size) ∧
      ((L.length : Int) < m.c.max_size →
        (m.brk :: L).take m.c.max_size.toNat = m.brk :: L ∧
        m1.c.cur_size = L.length + 1 ∧
        m1.c.index = hashtable_put m.c.index k m.brk ∧ m1.freed = m.freed) ∧
      ((L.length : Int) = m.c.max_size →
        ∃ t kt, L.getLast? = some t ∧ path_at m t = some kt ∧
          (m.brk :: L).take m.c.max_size.toNat = m.brk :: L.dropLast ∧
          m1.c.cur_size = m.c.max_size ∧
          m1.c.index = hashtable_delete (hashtable_put m.c.index k m.brk) kt ∧
          hashtable_get m1.c.index kt = none ∧
          m1.freed = t :: m.freed ∧ m1.heap t = none) := by
  obtain ⟨L0, hI⟩ := reachable_inv m hr
  obtain rfl : L0 = L := dllist_unique m L0 L hI.list hL
  obtain ⟨m1, hput, hp, hI1⟩ := cache_put_inv m L0 k ct p n hI
  obtain ⟨e, he, hpe⟩ := hp.entry
  have hsz := hI.size
  have hcap := hI.cap
  have hpos := hI.pos
  have hhead : m1.c.head = some m.brk := by
    rw [hp.list.head]
    obtain ⟨j, hj⟩ : ∃ j, m.c.max_size.toNat = j + 1 := ⟨m.c.max_size.toNat - 1, by omega⟩
    rw [hj]
    rfl
  refine ⟨m1, e, hput, hp.list, hhead, hI.fresh _ le_rfl, he, congrArg Prod.fst hpe,
    congrArg (fun x => x.2.1) hpe, congrArg (fun x => x.2.2.1) hpe,
    congrArg (fun x => x.2.2.2) hpe, by omega, ?_, ?_⟩
  · intro hlt
    obtain ⟨hidx, hfr, _⟩ := hp.keep hlt
    have htake : (m.brk :: L0).take m.c.max_size.toNat = m.brk :: L0 := by
      apply List.take_of_length_le
      simp only [List.length_cons]
      omega
    refine ⟨htake, ?_, hidx, hfr⟩
    rw [hp.cur_size, htake]
    simp
  · intro heq
    obtain ⟨t, kt, hlast, hpt, hidx, hfr, hnone, _⟩ := hp.evict heq
    obtain ⟨s, rfl⟩ := List.getLast?_eq_some_iff.1 hlast
    have htake : (m.brk :: (s ++ [t])).take m.c.max_size.toNat = m.brk :: (s ++ [t]).dropLast := by
      rw [take_cons_snoc _ _ _ _ (by omega)]
      simp
    refine ⟨t, kt, hlast, hpt, htake, ?_, hidx, ?_, hfr, hnone⟩
    · rw [hp.cur_size, htake]
      simp at heq ⊢
      omega
    · rw [hidx, hashtable_get_delete, if_pos rfl]

theorem put_effect_on_list_witness :
    Reachable sample ∧ dllist sample [2, 1, 0] ∧
    ∃ m1 e, cache_put sample "/d" "text/plain" [104, 105, 33] 2 = some m1 ∧
      dllist m1 ((sample.brk :: [2, 1, 0]).take sample.c.max_size.toNat) ∧
      m1.c.head = some sample.brk ∧ sample.heap sample.brk = none ∧
      m1.heap sample.brk = some e ∧
      e.path = "/d" ∧ e.content_type = "text/plain" ∧ e.content_length = 2 ∧
      e.content = [104, 105, 33].take (2 : Int).toNat ∧
      (((([2, 1, 0] : List Nat).length : Int) < sample.c.max_size) ∨
        ((([2, 1, 0] : List Nat).length : Int) = sample.c.max_size)) ∧
      (((([2, 1, 0] : List Nat).length : Int) < sample.c.max_size) →
        (sample.brk :: [2, 1, 0]).take sample.c.max_size.toNat = sample.brk :: [2, 1, 0] ∧
        m1.c.cur_size = (([2, 1, 0] : List Nat).length : Int) + 1 ∧
        m1.c.index = hashtable_put sample.c.index "/d" sample.brk ∧
        m1.freed = sample.freed) ∧
      (((([2, 1, 0] : List Nat).length : Int) = sample.c.max_size) →
        ∃ t kt, ([2, 1, 0] : List Nat).getLast? = some t ∧ path_at sample t = some kt ∧
          (sample.brk :: [2, 1, 0]).take sample.c.max_size.toNat =
            sample.brk :: ([2, 1, 0] : List Nat).dropLast ∧
          m1.c.cur_size = sample.c.max_size ∧
          m1.c.index = hashtable_delete (hashtable_put sample.c.index "/d" sample.brk) kt ∧
          hashtable_get m1.c.index kt = none ∧
          m1.freed = t :: sample.freed ∧ m1.heap t = none) :=
  ⟨sample_reachable, sample_dllist,
    put_effect_on_list sample [2, 1, 0] "/d" "text/plain" [104, 105, 33] 2 sample_reachable
      sample_dllist⟩

theorem holds_entries (m : Mem) (K : List String) (k : String) (h : holds m K) :
    (hashtable_get m.c.index k ≠ none → ∃ a ∈ cache_entries m, path_at m a = some k) ∧
      ((∃ a ∈ cache_entries m, path_at m a = some k) ↔ k ∈ K) := by
  obtain ⟨L, hI, _, hK⟩ := id h
  rw [cache_entries_eq m L hI]
  have hiff : (∃ a ∈ L, path_at m a = some k) ↔ k ∈ K := by
    have h1 : some k ∈ L.map (path_at m) ↔ some k ∈ K.map some := by rw [hK]
    simpa using h1
  refine ⟨?_, hiff⟩
  intro hne
  by_contra hcon
  exact hne ((holds_lookup m K k h).1 (fun hk => hcon (hiff.2 hk)))

theorem run_fresh_holds (m : Mem) (K : List String) (ops : List Op) (h : holds m K)
    (hf : fresh_puts m ops = true) : ∃ m1 K1, run m ops = some m1 ∧ holds m1 K1 := by
  induction ops generalizing m K with
  | nil => exact ⟨m, K, rfl, h⟩
  | cons op ops ih =>
    simp only [fresh_puts, Bool.and_eq_true] at hf
    obtain ⟨hf1, hf2⟩ := hf
    cases op with
    | put k ct p n =>
      have hk : k ∉ K := by
        intro hk
        obtain ⟨a, ha, hpa⟩ := ((holds_entries m K k h).2).2 hk
        have := List.all_eq_true.1 hf1 a ha
        simp [hpa] at this
      obtain ⟨m1, hput, hh1, _⟩ := holds_put m K k ct p n h hk
      have hs : step m (Op.put k ct p n) = some m1 := hput
      rw [hs] at hf2
      obtain ⟨m2, K2, hrun, hh2⟩ := ih m1 _ hh1 hf2
      exact ⟨m2, K2, by simp only [run, hs, Option.some_bind]; exact hrun, hh2⟩
    | get k =>
      by_cases hk : k ∈ K
      · obtain ⟨m1, a, hget, _, hh1, _⟩ := holds_hit m K k h hk
        have hs : step m (Op.get k) = some m1 := by simp [step, hget]
        rw [hs] at hf2
        obtain ⟨m2, K2, hrun, hh2⟩ := ih m1 _ hh1 hf2
        exact ⟨m2, K2, by simp only [run, hs, Option.some_bind]; exact hrun, hh2⟩
      · have hget := holds_miss m K k h hk
        have hs : step m (Op.get k) = some m := by simp [step, hget]
        rw [hs] at hf2
        obtain ⟨m2, K2, hrun, hh2⟩ := ih m K h hf2
        exact ⟨m2, K2, by simp only [run, hs, Option.some_bind]; exact hrun, hh2⟩

/-- C9: a miss changes nothing.  For every cache state `m` (reachable or not) and every key
`k` with no index association, `cache_get k` returns not-found and the state after the call
is `m` itself: head, tail, `cur_size`, `max_size`, the index and every entry are unchanged.
In particular every `cache_get` on a cache freshly returned by `cache_create` (head and tail
null, `cur_size` 0) returns not-found and leaves it in that state. -/
theorem miss_changes_nothing (m : Mem) (k : String) (max_size hashsize : Int) (k1 : String)
    (h : hashtable_get m.c.index k = none) :
    cache_get m k = some (m, none) ∧
      (cache_create max_size hashsize).c.head = none ∧
      (cache_create max_size hashsize).c.tail = none ∧
      (cache_create max_size hashsize).c.cur_size = 0 ∧
      cache_get (cache_create max_size hashsize) k1 =
        some (cache_create max_size hashsize, none) :=
  ⟨cache_get_miss m k h, rfl, rfl, rfl, cache_get_miss _ k1 rfl⟩

theorem miss_changes_nothing_witness :
    hashtable_get sample.c.index "/zzz" = none ∧
    cache_get sample "/zzz" = some (sample, none) ∧
      (cache_create 0 16).c.head = none ∧
      (cache_create 0 16).c.tail = none ∧
      (cache_create 0 16).c.cur_size = 0 ∧
      cache_get (cache_create 0 16) "/a" = some (cache_create 0 16, none) :=
  ⟨by decide, miss_changes_nothing sample "/zzz" 0 16 "/a" (by decide)⟩

/-- C10: no deduplication on put.  For every reachable cache with `max_size ≥ 2` and
`cur_size ≤ max_size - 2` whose recency list is `L`, two consecutive `cache_put` calls with
the same key `k` complete and produce two distinct list entries with key `k`, each carrying
the contents of its own put: `cur_size` grows by 2 and the older entry sits directly behind
the newer one at the head of the list.  A following `cache_get k` returns the newer entry,
not the older one, which stays on the list. -/
theorem no_dedup_on_put (m : Mem) (L : List Nat) (k ct1 ct2 : String) (p1 p2 : List Nat)
    (n1 n2 : Int) (hr : Reachable m) (hL : dllist m L) (hcap : 2 ≤ m.c.max_size)
    (hsz : m.c.cur_size ≤ m.c.max_size - 2) :
    ∃ m1 m2 m3 e1 e2 e3,
      cache_put m k ct1 p1 n1 = some m1 ∧ cache_put m1 k ct2 p2 n2 = some m2 ∧
      dllist m2 ((m.brk + 1) :: m.brk :: L) ∧ m.brk + 1 ≠ m.brk ∧
      m2.c.cur_size = m.c.cur_size + 2 ∧
      m2.heap m.brk = some e1 ∧ e1.path = k ∧
      payload e1 = (k, ct1, n1, p1.take n1.toNat) ∧
      m2.heap (m.brk + 1) = some e2 ∧ e2.path = k ∧
      payload e2 = (k, ct2, n2, p2.take n2.toNat) ∧
      cache_get m2 k = some (m3, some (m.brk + 1)) ∧
      m3.heap (m.brk + 1) = some e3 ∧ payload e3 = (k, ct2, n2, p2.take n2.toNat) ∧
      dllist m3 ((m.brk + 1) :: m.brk :: L) := by
  obtain ⟨L0, hI⟩ := reachable_inv m hr
  obtain rfl : L0 = L := dllist_unique m L0 L hI.list hL
  have hsize := hI.size
  obtain ⟨m1, hput1, hp1, hI1⟩ := cache_put_inv m L0 k ct1 p1 n1 hI
  have htake1 : (m.brk :: L0).take m.c.max_size.toNat = m.brk :: L0 := by
    apply List.take_of_length_le
    simp only [List.length_cons]
    omega
  rw [htake1] at hI1
  obtain ⟨m2, hput2, hp2, hI2⟩ := cache_put_inv m1 (m.brk :: L0) k ct2 p2 n2 hI1
  have hb1 : m1.brk = m.brk + 1 := hp1.brk
  have hx1 : m1.c.max_size = m.c.max_size := hp1.max_size
  have htake2 : (m1.brk :: m.brk :: L0).take m1.c.max_size.toNat = (m.brk + 1) :: m.brk :: L0 := by
    rw [hb1, hx1]
    apply List.take_of_length_le
    simp only [List.length_cons]
    omega
  rw [htake2] at hI2
  have hlt2 : (((m.brk :: L0).length : Nat) : Int) < m1.c.max_size := by
    rw [hx1]
    simp only [List.length_cons]
    omega
  obtain ⟨hidx2, _, hdat2⟩ := hp2.keep hlt2
  obtain ⟨e1, he1, hpe1⟩ := hp1.entry
  obtain ⟨e2, he2, hpe2⟩ := hp2.entry
  rw [hb1] at he2
  have h1 : (m2.heap m.brk).map payload = some (k, ct1, n1, p1.take n1.toNat) := by
    rw [hdat2 m.brk (by omega), he1]
    exact congrArg some hpe1
  obtain ⟨e1a, he1a, hpe1a⟩ := map_payload_some _ _ h1
  have hg : hashtable_get m2.c.index k = some (m.brk + 1) := by
    rw [hidx2, hashtable_get_put, if_pos rfl, hb1]
  obtain ⟨m3, hget, hd3, hf3, _⟩ := cache_get_hit m2 _ k (m.brk + 1) hI2.list
    (List.mem_cons_self _ _) hg
  rw [List.erase_cons_head] at hd3
  have h3 : (m3.heap (m.brk + 1)).map payload = some (k, ct2, n2, p2.take n2.toNat) := by
    rw [hf3.data, he2]
    exact congrArg some hpe2
  obtain ⟨e3, he3, hpe3⟩ := map_payload_some _ _ h3
  refine ⟨m1, m2, m3, e1a, e2, e3, hput1, hput2, hI2.list, by omega, ?_, he1a,
    congrArg Prod.fst hpe1a, hpe1a, he2, congrArg Prod.fst hpe2, hpe2, hget, he3, hpe3, hd3⟩
  rw [hI2.size, hsize]
  simp only [List.length_cons]
  push_cast
  omega

theorem no_dedup_on_put_witness :
    Reachable sample ∧ dllist sample [2, 1, 0] ∧ 2 ≤ sample.c.max_size ∧
    sample.c.cur_size ≤ sample.c.max_size - 2 ∧
    ∃ m1 m2 m3 e1 e2 e3,
      cache_put sample "/a" "text/html" [7] 1 = some m1 ∧
      cache_put m1 "/a" "text/plain" [8, 9] 2 = some m2 ∧
      dllist m2 ((sample.brk + 1) :: sample.brk :: [2, 1, 0]) ∧ sample.brk + 1 ≠ sample.brk ∧
      m2.c.cur_size = sample.c.cur_size + 2 ∧
      m2.heap sample.brk = some e1 ∧ e1.path = "/a" ∧
      payload e1 = ("/a", "text/html", 1, [7].take (1 : Int).toNat) ∧
      m2.heap (sample.brk + 1) = some e2 ∧ e2.path = "/a" ∧
      payload e2 = ("/a", "text/plain", 2, [8, 9].take (2 : Int).toNat) ∧
      cache_get m2 "/a" = some (m3, some (sample.brk + 1)) ∧
      m3.heap (sample.brk + 1) = some e3 ∧
      payload e3 = ("/a", "text/plain", 2, [8, 9].take (2 : Int).toNat) ∧
      dllist m3 ((sample.brk + 1) :: sample.brk :: [2, 1, 0]) :=
  ⟨sample_reachable, sample_dllist, by decide, by decide,
    no_dedup_on_put sample [2, 1, 0] "/a" "text/html" "text/plain" [7] [8, 9] 1 2
      sample_reachable sample_dllist (by decide) (by decide)⟩

theorem single_sample_dllist : dllist single_sample [0] :=
  ⟨by decide, ⟨_, rfl, rfl, rfl, trivial⟩, rfl, rfl⟩

theorem single_sample_reachable : Reachable single_sample :=
  ⟨1, 0, [Op.put "/a" "text/html" [1] 1], by decide, rfl⟩

/-- The contract of `dllist_remove_tail` on a well-formed list with at least two entries,
`s ++ [x] ++ [t]`: the call completes, returns the last entry `t`, leaves the list
`s ++ [x]`, sets `tail` to `x`, the former `prev` of `t`, whose `next` becomes `NULL`,
decrements `cur_size` and touches neither the index nor any payload. -/
theorem dllist_remove_tail_contract (m : Mem) (s : List Nat) (x t : Nat)
    (hL : dllist m (s ++ [x] ++ [t])) :
    ∃ m1 ex, dllist_remove_tail m = some (m1, t) ∧ dllist m1 (s ++ [x]) ∧
      get_prev m.heap (some t) = some (some x) ∧ m1.c.tail = some x ∧
      m1.heap x = some ex ∧ ex.next = none ∧ m1.c.index = m.c.index ∧
      m1.c.cur_size = m.c.cur_size - 1 ∧ m1.c.head = m.c.head ∧
      ∀ a, (m1.heap a).map payload = (m.heap a).map payload := by
  obtain ⟨m1, h1, hd1, _⟩ := dllist_remove_tail_spec m s x t hL
  obtain ⟨hdat, _, _, hidx, hcs, _, hhd, _⟩ := dllist_remove_tail_frame m m1 t h1
  obtain ⟨_, _, _, het, hp, _⟩ := seg_unlink_tail m.heap s x t hL.links hL.nodup
  have htl : m1.c.tail = some x := by rw [hd1.tail]; simp
  obtain ⟨_, ex, hx, _, hnx⟩ := (seg_snoc m1.heap s x none none).1 hd1.links
  exact ⟨m1, ex, h1, hd1, by simp [get_prev, het, hp], htl, hx, hnx, hidx, hcs, hhd, hdat⟩

/-- On every well-formed one-entry list `dllist_remove_tail` fails: the new tail is `NULL`
and is dereferenced. -/
theorem dllist_remove_tail_single (m : Mem) (a : Nat) (hL : dllist m [a]) :
    dllist_remove_tail m = none := by
  obtain ⟨e, he, hp, _, _⟩ := id hL.links
  have htl : m.c.tail = some a := hL.tail
  simp [dllist_remove_tail, htl, get_prev, he, hp, set_next]

/-- C11: the removeTail contract fails on a one-entry list.  On the cache of capacity 1
after one put, whose recency list is the well-formed one-entry list `[0]`,
`dllist_remove_tail` reads the null `prev` of the tail, makes it the new tail and fails on
the assignment `cache->tail->next = NULL`: the call does not complete.  The public
interface reaches this: on a cache created with capacity 0 the first `cache_put` calls
`dllist_remove_tail` on its one-entry list and does not complete either. -/
theorem remove_tail_single_entry :
    dllist single_sample [0] ∧ single_sample.c.tail = some 0 ∧
      get_prev single_sample.heap single_sample.c.tail = some none ∧
      set_next single_sample.heap none none = none ∧
      dllist_remove_tail single_sample = none ∧
      cache_put (cache_create 0 0) "/a" "text/html" [1] 1 = none :=
  ⟨single_sample_dllist, rfl, rfl, rfl, rfl, rfl⟩

theorem seg_adjacent (h : Nat → Option cache_entry) (s t : List Nat) (x y : Nat)
    (p n : Option Nat) (hs : seg h p (s ++ x :: y :: t) n) :
    ∃ ex ey, h x = some ex ∧ h y = some ey ∧ ex.next = some y ∧ ey.prev = some x := by
  obtain ⟨_, h2⟩ := (seg_append h s (x :: y :: t) p n).1 hs
  obtain ⟨ex, hx, _, hnx, ey, hy, hpy, _, _⟩ := h2
  exact ⟨ex, ey, hx, hy, hnx, hpy⟩

theorem dllist_ends (m : Mem) (L : List Nat) (hL : dllist m L) :
    (∀ hd, m.c.head = some hd → ∃ e, m.heap hd = some e ∧ e.prev = none) ∧
      (∀ tl, m.c.tail = some tl → ∃ e, m.heap tl = some e ∧ e.next = none) ∧
      (m.c.head = none ↔ L = []) ∧ (m.c.tail = none ↔ L = []) := by
  refine ⟨?_, ?_, ?_, ?_⟩
  · intro hd hh
    rw [hL.head] at hh
    cases L with
    | nil => simp at hh
    | cons a l =>
      simp at hh
      subst hh
      obtain ⟨e, he, hp, _, _⟩ := id hL.links
      exact ⟨e, he, hp⟩
  · intro tl ht
    rw [hL.tail] at ht
    obtain ⟨s, rfl⟩ := List.getLast?_eq_some_iff.1 ht
    obtain ⟨_, e, he, _, hn⟩ := (seg_snoc m.heap s tl none none).1 hL.links
    exact ⟨e, he, hn⟩
  · rw [hL.head]
    cases L <;> simp
  · rw [hL.tail]
    exact List.getLast?_eq_none_iff

/-- C12: recency-list well-formedness is an invariant.  In every state reached from
`cache_create` (`max_size ≥ 1`) by `cache_put` and `cache_get` calls, after each call:
following `next` from `head` visits exactly `cur_size` pairwise distinct entries, ends at
`tail` and then at `NULL` (more fuel visits nothing more: no cycle); `head.prev` and
`tail.next` are null; every adjacent pair `x`, `y` of the list has `x.next = y` and
`y.prev = x`; and `head` and `tail` are both null iff `cur_size = 0` (each of them is). -/
theorem list_well_formed (max_size hashsize : Int) (ops : List Op) (i : Nat)
    (h : 1 ≤ max_size) :
    ∃ m, run (cache_create max_size hashsize) (ops.take i) = some m ∧
      dllist m (cache_entries m) ∧
      (cache_entries m).Nodup ∧ ((cache_entries m).length : Int) = m.c.cur_size ∧
      m.c.head = (cache_entries m).head? ∧ m.c.tail = (cache_entries m).getLast? ∧
      (∀ fuel, (cache_entries m).length ≤ fuel →
        walk m.heap fuel m.c.head = cache_entries m) ∧
      (∀ hd, m.c.head = some hd → ∃ e, m.heap hd = some e ∧ e.prev = none) ∧
      (∀ tl, m.c.tail = some tl → ∃ e, m.heap tl = some e ∧ e.next = none) ∧
      (∀ s x y t, cache_entries m = s ++ x :: y :: t →
        ∃ ex ey, m.heap x = some ex ∧ m.heap y = some ey ∧ ex.next = some y ∧
          ey.prev = some x) ∧
      ((m.c.head = none ∧ m.c.tail = none) ↔ m.c.cur_size = 0) ∧
      (m.c.head = none ↔ m.c.cur_size = 0) ∧ (m.c.tail = none ↔ m.c.cur_size = 0) := by
  obtain ⟨m, L, hrun, hI, _⟩ :=
    run_inv _ [] (ops.take i) (cache_create_inv max_size hashsize h)
  have hL := cache_entries_eq m L hI
  obtain ⟨hhd, htl, hhn, htn⟩ := dllist_ends m L hI.list
  have hz : m.c.cur_size = 0 ↔ L = [] := by
    rw [hI.size]
    cases L <;> simp
    omega
  refine ⟨m, hrun, ?_⟩
  rw [hL]
  refine ⟨hI.list, hI.list.nodup, hI.size.symm, hI.list.head, hI.list.tail,
    fun fuel hf => dllist_walk m L fuel hI.list hf, hhd, htl, ?_, ?_, ?_, ?_⟩
  · intro s x y t hs
    have hl := hI.list.links
    rw [hs] at hl
    exact seg_adjacent m.heap s t x y none none hl
  · rw [hz]
    constructor
    · intro hh
      exact hhn.1 hh.1
    · intro hh
      exact ⟨hhn.2 hh, htn.2 hh⟩
  · rw [hz]
    exact hhn
  · rw [hz]
    exact htn

theorem list_well_formed_witness :
    (1 : Int) ≤ 2 ∧
    ∃ m, run (cache_create 2 0)
        ([Op.put "/a" "text/html" [104, 105] 2, Op.put "/b" "text/plain" [] 0, Op.get "/a",
          Op.put "/c" "text/html" [1] 1, Op.get "/b"].take 4) = some m ∧
      dllist m (cache_entries m) ∧
      (cache_entries m).Nodup ∧ ((cache_entries m).length : Int) = m.c.cur_size ∧
      m.c.head = (cache_entries m).head? ∧ m.c.tail = (cache_entries m).getLast? ∧
      (∀ fuel, (cache_entries m).length ≤ fuel →
        walk m.heap fuel m.c.head = cache_entries m) ∧
      (∀ hd, m.c.head = some hd → ∃ e, m.heap hd = some e ∧ e.prev = none) ∧
      (∀ tl, m.c.tail = some tl → ∃ e, m.heap tl = some e ∧ e.next = none) ∧
      (∀ s x y t, cache_entries m = s ++ x :: y :: t →
        ∃ ex ey, m.heap x = some ex ∧ m.heap y = some ey ∧ ex.next = some y ∧
          ey.prev = some x) ∧
      ((m.c.head = none ∧ m.c.tail = none) ↔ m.c.cur_size = 0) ∧
      (m.c.head = none ↔ m.c.cur_size = 0) ∧ (m.c.tail = none ↔ m.c.cur_size = 0) :=
  ⟨by decide, list_well_formed 2 0 _ 4 (by decide)⟩

/-- C13: frame of a hit.  For every reachable cache state and every key `k` the index
associates with an entry `a`, `cache_get k` completes and returns exactly `a`, which is
then the list head, the other entries keeping their order; it changes no entry's `path`,
`content_type`, `content` or `content_length`, allocates and frees nothing, and leaves
`cur_size`, `max_size` and the index as they were: only `prev`/`next` links and the
`head`/`tail` references may differ. -/
theorem hit_frame (m : Mem) (k : String) (a : Nat) (hr : Reachable m)
    (h : hashtable_get m.c.index k = some a) :
    ∃ m1, cache_get m k = some (m1, some a) ∧ m1.c.head = some a ∧
      cache_entries m1 = a :: (cache_entries m).erase a ∧
      (∀ b, (m1.heap b).map payload = (m.heap b).map payload) ∧
      m1.c.cur_size = m.c.cur_size ∧ m1.c.max_size = m.c.max_size ∧
      m1.c.index = m.c.index ∧ m1.brk = m.brk ∧ m1.freed = m.freed ∧ links_only m m1 := by
  obtain ⟨L, hI⟩ := reachable_inv m hr
  obtain ⟨m1, r, L1, hget, hI1, hf, hr1, hL1⟩ := cache_get_inv m L k hI
  rw [h] at hr1
  subst hr1
  simp only at hL1
  subst hL1
  refine ⟨m1, hget, hI1.list.head, ?_, hf.data, hf.cur_size, hf.max_size, hf.index, hf.brk,
    hf.freed, hf⟩
  rw [cache_entries_eq m L hI, cache_entries_eq m1 _ hI1]

theorem hit_frame_witness :
    Reachable sample ∧ hashtable_get sample.c.index "/b" = some 1 ∧
    ∃ m1, cache_get sample "/b" = some (m1, some 1) ∧ m1.c.head = some 1 ∧
      cache_entries m1 = 1 :: (cache_entries sample).erase 1 ∧
      (∀ b, (m1.heap b).map payload = (sample.heap b).map payload) ∧
      m1.c.cur_size = sample.c.cur_size ∧ m1.c.max_size = sample.c.max_size ∧
      m1.c.index = sample.c.index ∧ m1.brk = sample.brk ∧ m1.freed = sample.freed ∧
      links_only sample m1 :=
  ⟨sample_reachable, by decide, hit_frame sample "/b" 1 sample_reachable (by decide)⟩

/-- C16: non-positive capacity makes the first put fail.  For every cache created by
`cache_create` with `max_size ≤ 0`, the first `cache_put` inserts one entry (the list is
the one-entry list `[0]`), finds `cur_size = 1 > max_size` and calls `dllist_remove_tail`
on that list, where the removed entry's `prev`, which is null, becomes the tail and is
dereferenced: `dllist_remove_tail` fails and `cache_put` returns no cache. -/
theorem nonpositive_capacity_put_fails (max_size hashsize : Int) (k ct : String)
    (p : List Nat) (n : Int) (h : max_size ≤ 0) :
    (cache_create max_size hashsize).c.max_size = max_size ∧
    ∃ m2, dllist_insert_head (alloc_entry (cache_create max_size hashsize) k ct p n).1
          (alloc_entry (cache_create max_size hashsize) k ct p n).2 = some m2 ∧
      dllist m2 [0] ∧ m2.c.cur_size + 1 = 1 ∧ m2.c.cur_size + 1 > m2.c.max_size ∧
      get_prev m2.heap m2.c.tail = some none ∧
      (∀ idx, dllist_remove_tail
        { m2 with c := { m2.c with index := idx, cur_size := m2.c.cur_size + 1 } } = none) ∧
      cache_put (cache_create max_size hashsize) k ct p n = none := by
  refine ⟨rfl, ?_⟩
  have hd0 : dllist (alloc_entry (cache_create max_size hashsize) k ct p n).1 [] :=
    ⟨List.nodup_nil, trivial, rfl, rfl⟩
  have ha0 : (alloc_entry (cache_create max_size hashsize) k ct p n).1.heap 0 =
      some { path := k, content_type := ct, content := p.take n.toNat, content_length := n,
             prev := none, next := none } := by
    simp [alloc_entry, cache_create]
  obtain ⟨m2, h2, hd2⟩ := dllist_insert_head_spec _ 0 [] _ hd0 ha0 (List.not_mem_nil _)
  have hf2 := dllist_insert_head_frame _ _ _ h2
  have hc2 : m2.c.cur_size = 0 := hf2.cur_size
  have hx2 : m2.c.max_size = max_size := hf2.max_size
  obtain ⟨e2, he2, hp2, _, _⟩ := id hd2.links
  have htl : m2.c.tail = some 0 := hd2.tail
  have hrt : ∀ idx, dllist_remove_tail
      { m2 with c := { m2.c with index := idx, cur_size := m2.c.cur_size + 1 } } = none :=
    fun idx => dllist_remove_tail_single _ 0 ⟨hd2.nodup, hd2.links, hd2.head, hd2.tail⟩
  refine ⟨m2, h2, hd2, by rw [hc2]; rfl, by rw [hc2, hx2]; omega,
    by simp [htl, get_prev, he2, hp2], hrt, ?_⟩
  have hgt : m2.c.cur_size + 1 > m2.c.max_size := by rw [hc2, hx2]; omega
  have he2a : m2.heap (alloc_entry (cache_create max_size hashsize) k ct p n).2 = some e2 := he2
  have h2a : dllist_insert_head (alloc_entry (cache_create max_size hashsize) k ct p n).1
      (alloc_entry (cache_create max_size hashsize) k ct p n).2 = some m2 := h2
  unfold cache_put
  simp only [h2a, he2a, Option.some_bind, if_pos hgt]
  rw [show dllist_remove_tail _ = none from hrt _]
  rfl

theorem nonpositive_capacity_put_fails_witness :
    (0 : Int) ≤ 0 ∧
    (cache_create 0 16).c.max_size = 0 ∧
    ∃ m2, dllist_insert_head (alloc_entry (cache_create 0 16) "/a" "text/html" [1] 1).1
          (alloc_entry (cache_create 0 16) "/a" "text/html" [1] 1).2 = some m2 ∧
      dllist m2 [0] ∧ m2.c.cur_size + 1 = 1 ∧ m2.c.cur_size + 1 > m2.c.max_size ∧
      get_prev m2.heap m2.c.tail = some none ∧
      (∀ idx, dllist_remove_tail
        { m2 with c := { m2.c with index := idx, cur_size := m2.c.cur_size + 1 } } = none) ∧
      cache_put (cache_create 0 16) "/a" "text/html" [1] 1 = none :=
  ⟨by decide, nonpositive_capacity_put_fails 0 16 "/a" "text/html" [1] 1 (by decide)⟩

theorem put_tail_key (m : Mem) (L : List Nat) (t : Nat) (k ct : String) (p : List Nat)
    (n : Int) (hI : Inv m L) (hfull : (L.length : Int) = m.c.max_size)
    (ht : L.getLast? = some t) (hk : path_at m t = some k) :
    ∃ m1, cache_put m k ct p n = some m1 ∧ m1.c.head = some m.brk ∧
      path_at m1 m.brk = some k ∧ m1.c.cur_size = m.c.max_size ∧
      m1.freed = t :: m.freed ∧
      hashtable_get m1.c.index k = none ∧ cache_get m1 k = some (m1, none) := by
  obtain ⟨m1, hput, hp, hI1⟩ := cache_put_inv m L k ct p n hI
  have hpos := hI.pos
  obtain ⟨t1, kt, hlast, hpt, hidx, hfr, _, _⟩ := hp.evict hfull
  rw [ht] at hlast
  cases hlast
  rw [hk] at hpt
  cases hpt
  obtain ⟨e, he, hpe⟩ := hp.entry
  obtain ⟨j, hj⟩ : ∃ j, m.c.max_size.toNat = j + 1 := ⟨m.c.max_size.toNat - 1, by omega⟩
  have hg : hashtable_get m1.c.index k = none := by
    rw [hidx, hashtable_get_delete, if_pos rfl]
  refine ⟨m1, hput, ?_, ?_, ?_, hfr, hg, cache_get_miss m1 k hg⟩
  · rw [hp.list.head, hj]
    rfl
  · simp only [path_at, he, Option.map_some']
    exact congrArg some (congrArg Prod.fst hpe)
  · rw [hp.cur_size, List.length_take]
    simp only [List.length_cons]
    omega

/-- C18: a put can make its own key unreachable.  On a reachable cache whose list `L` is
full and whose tail `t` has key `k`, `cache_put k` completes, evicts `t`, and the
`hashtable_delete` of the tail's key removes the association just made for the new entry:
the new entry is the list head and has key `k`, yet the index lookup of `k` is null and
the immediately following `cache_get k` returns not-found, leaving the state as it is.
For example on a cache with `max_size` 1, `put a`, `put a`, `get a` (any contents) returns
not-found with `cur_size = 1`, the second entry being the head. -/
theorem put_hides_own_key (m : Mem) (L : List Nat) (t : Nat) (k ct : String) (p : List Nat)
    (n : Int) (hr : Reachable m) (hL : dllist m L) (hfull : (L.length : Int) = m.c.max_size)
    (ht : L.getLast? = some t) (hk : path_at m t = some k) :
    (∃ m1, cache_put m k ct p n = some m1 ∧ m1.c.head = some m.brk ∧
      path_at m1 m.brk = some k ∧ m1.c.cur_size = m.c.max_size ∧
      m1.freed = t :: m.freed ∧
      hashtable_get m1.c.index k = none ∧ cache_get m1 k = some (m1, none)) ∧
    ∀ (hashsize : Int) (a : String) (v1 v2 : String × List Nat × Int),
      ∃ m2, run (cache_create 1 hashsize)
          [Op.put a v1.1 v1.2.1 v1.2.2, Op.put a v2.1 v2.2.1 v2.2.2] = some m2 ∧
        cache_get m2 a = some (m2, none) ∧ m2.c.cur_size = 1 ∧ m2.c.head = some 1 ∧
        path_at m2 1 = some a := by
  constructor
  · obtain ⟨L0, hI⟩ := reachable_inv m hr
    obtain rfl : L0 = L := dllist_unique m L0 L hI.list hL
    exact put_tail_key m L0 t k ct p n hI hfull ht hk
  · intro hashsize a v1 v2
    obtain ⟨m1, hput1, hp1, hI1⟩ := cache_put_inv _ [] a v1.1 v1.2.1 v1.2.2
      (cache_create_inv 1 hashsize (by decide))
    have hI1a : Inv m1 [0] := hI1
    obtain ⟨e, he, hpe⟩ := hp1.entry
    have hpa : path_at m1 0 = some a := by
      have he0 : m1.heap 0 = some e := he
      simp only [path_at, he0, Option.map_some']
      exact congrArg some (congrArg Prod.fst hpe)
    have hx1 : m1.c.max_size = 1 := hp1.max_size
    have hb1 : m1.brk = 1 := hp1.brk
    obtain ⟨m2, hput2, hh2, hpa2, hc2, _, _, hg2⟩ :=
      put_tail_key m1 [0] 0 a v2.1 v2.2.1 v2.2.2 hI1a (by rw [hx1]; rfl) rfl hpa
    rw [hb1] at hh2 hpa2
    refine ⟨m2, ?_, hg2, hc2.trans hx1, hh2, hpa2⟩
    simp only [run, step, hput1, hput2, Option.some_bind]

theorem put_hides_own_key_witness :
    Reachable single_sample ∧ dllist single_sample [0] ∧
    ((([0] : List Nat).length : Int) = single_sample.c.max_size) ∧
    ([0] : List Nat).getLast? = some 0 ∧ path_at single_sample 0 = some "/a" ∧
    (∃ m1, cache_put single_sample "/a" "text/plain" [2, 3] 2 = some m1 ∧
      m1.c.head = some single_sample.brk ∧
      path_at m1 single_sample.brk = some "/a" ∧ m1.c.cur_size = single_sample.c.max_size ∧
      m1.freed = 0 :: single_sample.freed ∧
      hashtable_get m1.c.index "/a" = none ∧ cache_get m1 "/a" = some (m1, none)) ∧
    ∀ (hashsize : Int) (a : String) (v1 v2 : String × List Nat × Int),
      ∃ m2, run (cache_create 1 hashsize)
          [Op.put a v1.1 v1.2.1 v1.2.2, Op.put a v2.1 v2.2.1 v2.2.2] = some m2 ∧
        cache_get m2 a = some (m2, none) ∧ m2.c.cur_size = 1 ∧ m2.c.head = some 1 ∧
        path_at m2 1 = some a :=
  ⟨single_sample_reachable, single_sample_dllist, by decide, by decide, by decide,
    put_hides_own_key single_sample [0] 0 "/a" "text/plain" [2, 3] 2
      single_sample_reachable single_sample_dllist (by decide) (by decide) (by decide)⟩

/-! ## Accounting of allocated and freed entries -/

theorem acct_create (max_size hashsize : Int) : Acct (cache_create max_size hashsize) [] :=
  ⟨List.Perm.refl _, fun a e he => by simp [cache_create] at he⟩

theorem acct_put (m m1 : Mem) (L : List Nat) (k ct : String) (p : List Nat) (n : Int)
    (hI : Inv m L) (hA : Acct m L) (hp : put_post m L k ct p n m1) :
    Acct m1 ((m.brk :: L).take m.c.max_size.toNat) := by
  have hsz := hI.size
  have hcap := hI.cap
  have hpos := hI.pos
  by_cases hlt : (L.length : Int) < m.c.max_size
  · obtain ⟨_, hfr, hdat⟩ := hp.keep hlt
    have htake : (m.brk :: L).take m.c.max_size.toNat = m.brk :: L := by
      apply List.take_of_length_le
      simp only [List.length_cons]
      omega
    rw [htake]
    constructor
    · rw [hfr, hp.brk, List.range_succ, List.cons_append]
      exact (List.Perm.cons _ hA.perm).trans (List.perm_append_singleton _ _).symm
    · intro a e he
      by_cases hab : a = m.brk
      · exact hab ▸ List.mem_cons_self _ _
      · have h1 := hp.data a e hab he
        obtain ⟨e0, he0, _⟩ := map_payload_some _ _ h1
        exact List.mem_cons_of_mem _ (hA.live a e0 he0)
  · have heq : (L.length : Int) = m.c.max_size := by omega
    obtain ⟨t, kt, hlast, _, _, hfr, hnone, _⟩ := hp.evict heq
    obtain ⟨s, rfl⟩ := List.getLast?_eq_some_iff.1 hlast
    have htake : (m.brk :: (s ++ [t])).take m.c.max_size.toNat = m.brk :: s :=
      take_cons_snoc _ _ _ _ (by omega)
    rw [htake]
    constructor
    · rw [hfr, hp.brk, List.range_succ, List.cons_append]
      have h1 : (s ++ t :: m.freed).Perm (List.range m.brk) := by
        have := hA.perm
        simpa using this
      exact (List.Perm.cons _ h1).trans (List.perm_append_singleton _ _).symm
    · intro a e he
      by_cases hab : a = m.brk
      · exact hab ▸ List.mem_cons_self _ _
      · have h1 := hp.data a e hab he
        obtain ⟨e0, he0, _⟩ := map_payload_some _ _ h1
        have h2 := hA.live a e0 he0
        have hat : a ≠ t := by
          rintro rfl
          rw [hnone] at he
          cases he
        simp at h2 ⊢
        tauto

theorem acct_links_only (m m1 : Mem) (L L1 : List Nat) (hA : Acct m L)
    (hf : links_only m m1) (hperm : L1.Perm L) : Acct m1 L1 := by
  constructor
  · rw [hf.freed, hf.brk]
    exact (List.Perm.append_right _ hperm).trans hA.perm
  · intro a e he
    have h1 := hf.data a
    rw [he] at h1
    obtain ⟨e0, he0, _⟩ := map_payload_some _ _ h1.symm
    exact hperm.mem_iff.2 (hA.live a e0 he0)

theorem step_acct (m : Mem) (L : List Nat) (op : Op) (hI : Inv m L) (hA : Acct m L) :
    ∃ m1 L1, step m op = some m1 ∧ Inv m1 L1 ∧ Acct m1 L1 ∧
      m1.brk = m.brk + put_count [op] := by
  cases op with
  | put k ct p n =>
    obtain ⟨m1, h1, hp, hI1⟩ := cache_put_inv m L k ct p n hI
    exact ⟨m1, _, h1, hI1, acct_put m m1 L k ct p n hI hA hp, hp.brk⟩
  | get k =>
    obtain ⟨m1, r, L1, h1, hI1, hf, hr, hL1⟩ := cache_get_inv m L k hI
    refine ⟨m1, L1, by simp [step, h1], hI1, acct_links_only m m1 L L1 hA hf ?_, hf.brk⟩
    subst hL1
    cases r with
    | none => exact List.Perm.refl _
    | some a => exact (List.perm_cons_erase (hI.sound k a hr.symm).1).symm

theorem run_acct (m : Mem) (L : List Nat) (ops : List Op) (hI : Inv m L) (hA : Acct m L) :
    ∃ m1 L1, run m ops = some m1 ∧ Inv m1 L1 ∧ Acct m1 L1 ∧
      m1.brk = m.brk + put_count ops := by
  induction ops generalizing m L with
  | nil => exact ⟨m, L, rfl, hI, hA, rfl⟩
  | cons op ops ih =>
    obtain ⟨m1, L1, h1, hI1, hA1, hb1⟩ := step_acct m L op hI hA
    obtain ⟨m2, L2, h2, hI2, hA2, hb2⟩ := ih m1 L1 hI1 hA1
    refine ⟨m2, L2, by simp [run, h1, h2], hI2, hA2, ?_⟩
    rw [hb2, hb1]
    cases op with
    | put k ct p n =>
      simp only [put_count]
      omega
    | get k => simp only [put_count, Nat.add_zero]

theorem reachable_acct (m : Mem) (h : Reachable m) : ∃ L, Inv m L ∧ Acct m L := by
  obtain ⟨max_size, hashsize, ops, hpos, hrun⟩ := h
  obtain ⟨m1, L1, h1, hI1, hA1, _⟩ := run_acct _ [] ops
    (cache_create_inv max_size hashsize hpos) (acct_create max_size hashsize)
  rw [hrun] at h1
  cases h1
  exact ⟨L1, hI1, hA1⟩

theorem acct_not_freed (m : Mem) (L : List Nat) (hA : Acct m L) : ∀ a ∈ L, a ∉ m.freed := by
  have hnd : (L ++ m.freed).Nodup := hA.perm.nodup_iff.2 (List.nodup_range _)
  intro a ha hfr
  exact (List.nodup_append.1 hnd).2.2 ha hfr

/-! ## Teardown -/

theorem cache_free_loop_spec (L : List Nat) (m : Mem) (p : Option Nat) (fuel : Nat)
    (hs : seg m.heap p L none) (hnd : L.Nodup) (hf : L.length ≤ fuel) :
    ∃ m1, cache_free_loop fuel m (hd_or L none) = some m1 ∧
      m1.freed = L.reverse ++ m.freed ∧
      (∀ a, m1.heap a = if a ∈ L then none else m.heap a) ∧ m1.brk = m.brk ∧
      m1.c = m.c := by
  induction L generalizing m p fuel with
  | nil =>
    refine ⟨m, ?_, rfl, fun a => by simp, rfl, rfl⟩
    cases fuel <;> simp [cache_free_loop, hd_or]
  | cons a l ih =>
    obtain ⟨e, he, _, hnext, hseg⟩ := hs
    cases fuel with
    | zero => simp at hf
    | succ f =>
      have hl : l.length ≤ f := by simpa using hf
      have hal : a ∉ l := (List.nodup_cons.1 hnd).1
      have hseg1 : seg (Function.update m.heap a none) (some a) l none := by
        refine seg_frame m.heap _ l _ _ ?_ hseg
        intro b hb
        have : b ≠ a := fun h => hal (h ▸ hb)
        simp [Function.update_noteq this]
      obtain ⟨m1, h1, hfr, hheap, hbrk, hc⟩ :=
        ih { m with heap := Function.update m.heap a none, freed := a :: m.freed } (some a) f
          hseg1 (List.nodup_cons.1 hnd).2 hl
      refine ⟨m1, ?_, ?_, ?_, hbrk, hc⟩
      · show cache_free_loop (f + 1) m (some a) = some m1
        simp only [cache_free_loop, get_next, he, Option.map_some', Option.some_bind,
          free_entry, hnext]
        exact h1
      · rw [hfr]
        simp
      · intro b
        rw [hheap b]
        by_cases hba : b = a
        · subst hba
          simp
        · by_cases hbl : b ∈ l
          · simp [hbl]
          · simp [hbl, hba, Function.update_noteq hba]

/-- C14: every entry is destroyed exactly once.  For every cache created with
`max_size ≥ 1` and every sequence of put/get calls: the calls complete; the addresses
handed out by `alloc_entry` are `0 .. put_count - 1`, one per `cache_put`; before
teardown each of them is either on the recency list or in the log of freed entries, in one
of them only and once (an evicted entry is logged and no longer listed).  The traversal of
`cache_free` terminates as soon as the fuel covers the list: it then calls `free_entry`
exactly once on each entry of the recency list, in list order, and on no other entry, so
that over the whole run the log of freed entries is a permutation of the allocated
addresses, without repetition, and no entry stays allocated. -/
theorem entries_freed_once (max_size hashsize : Int) (ops : List Op) (h : 1 ≤ max_size) :
    ∃ m, run (cache_create max_size hashsize) ops = some m ∧ m.brk = put_count ops ∧
      (cache_entries m ++ m.freed).Perm (List.range (put_count ops)) ∧
      (∀ a e, m.heap a = some e → a ∈ cache_entries m) ∧
      ∀ fuel, (cache_entries m).length ≤ fuel →
        ∃ m1, cache_free fuel m = some m1 ∧
          m1.freed = (cache_entries m).reverse ++ m.freed ∧
          m1.freed.Perm (List.range (put_count ops)) ∧ m1.freed.Nodup ∧
          ∀ a, m1.heap a = none := by
  obtain ⟨m, L, hrun, hI, hA, hbrk⟩ := run_acct _ [] ops
    (cache_create_inv max_size hashsize h) (acct_create max_size hashsize)
  have hb : m.brk = put_count ops := by
    rw [hbrk]
    show 0 + put_count ops = put_count ops
    omega
  refine ⟨m, hrun, hb, ?_⟩
  rw [cache_entries_eq m L hI, ← hb]
  refine ⟨hA.perm, hA.live, ?_⟩
  intro fuel hf
  obtain ⟨m1, h1, hfr, hheap, _, _⟩ := cache_free_loop_spec L
    { m with c := { m.c with index := hashtable_destroy m.c.index } } none fuel
    hI.list.links hI.list.nodup hf
  have hperm : m1.freed.Perm (List.range m.brk) := by
    rw [hfr]
    exact (List.Perm.append_right _ (List.reverse_perm L)).trans hA.perm
  refine ⟨m1, ?_, hfr, hperm, hperm.nodup_iff.2 (List.nodup_range _), ?_⟩
  · unfold cache_free
    rw [hI.list.head, ← hd_or_none]
    exact h1
  · intro a
    rw [hheap a]
    by_cases haL : a ∈ L
    · simp [haL]
    · simp only [haL, if_false]
      cases hm : m.heap a with
      | none => rfl
      | some e => exact absurd (hA.live a e hm) haL

theorem entries_freed_once_witness :
    (1 : Int) ≤ 2 ∧
    ∃ m, run (cache_create 2 0)
        [Op.put "/a" "text/html" [1] 1, Op.put "/a" "text/html" [2] 1, Op.get "/a",
         Op.put "/b" "text/css" [3, 4] 2, Op.put "/c" "text/plain" [] 0] = some m ∧
      m.brk = put_count
        [Op.put "/a" "text/html" [1] 1, Op.put "/a" "text/html" [2] 1, Op.get "/a",
         Op.put "/b" "text/css" [3, 4] 2, Op.put "/c" "text/plain" [] 0] ∧
      (cache_entries m ++ m.freed).Perm (List.range (put_count
        [Op.put "/a" "text/html" [1] 1, Op.put "/a" "text/html" [2] 1, Op.get "/a",
         Op.put "/b" "text/css" [3, 4] 2, Op.put "/c" "text/plain" [] 0])) ∧
      (∀ a e, m.heap a = some e → a ∈ cache_entries m) ∧
      ∀ fuel, (cache_entries m).length ≤ fuel →
        ∃ m1, cache_free fuel m = some m1 ∧
          m1.freed = (cache_entries m).reverse ++ m.freed ∧
          m1.freed.Perm (List.range (put_count
            [Op.put "/a" "text/html" [1] 1, Op.put "/a" "text/html" [2] 1, Op.get "/a",
             Op.put "/b" "text/css" [3, 4] 2, Op.put "/c" "text/plain" [] 0])) ∧
          m1.freed.Nodup ∧ ∀ a, m1.heap a = none :=
  ⟨by decide, entries_freed_once 2 0 _ (by decide)⟩

/-- C17: index soundness.  In every state reachable from `cache_create` (`max_size ≥ 1`) by
`cache_put` and `cache_get`, duplicate keys allowed, every association `k → e` held by the
index refers to an entry `e` that is on the recency list, is allocated with `path` equal to
`k`, and was not freed; hence every entry `cache_get` returns is on the list, allocated
under the requested key, and not an evicted (freed) one. -/
theorem index_sound (m : Mem) (hr : Reachable m) :
    (∀ k e, hashtable_get m.c.index k = some e →
      e ∈ cache_entries m ∧ path_at m e = some k ∧ e ∉ m.freed) ∧
    ∀ k m1 e, cache_get m k = some (m1, some e) →
      hashtable_get m.c.index k = some e ∧ e ∈ cache_entries m1 ∧
        path_at m1 e = some k ∧ e ∉ m1.freed := by
  obtain ⟨L, hI, hA⟩ := reachable_acct m hr
  have h1 : ∀ k e, hashtable_get m.c.index k = some e →
      e ∈ cache_entries m ∧ path_at m e = some k ∧ e ∉ m.freed := by
    intro k e hg
    obtain ⟨heL, hpe⟩ := hI.sound k e hg
    rw [cache_entries_eq m L hI]
    exact ⟨heL, hpe, acct_not_freed m L hA e heL⟩
  refine ⟨h1, ?_⟩
  intro k m1 e hget
  obtain ⟨m2, r, L1, hget2, hI2, hf, hr2, hL1⟩ := cache_get_inv m L k hI
  rw [hget] at hget2
  cases hget2
  obtain ⟨he, hpe, hfr⟩ := h1 k e hr2.symm
  rw [cache_entries_eq m L hI] at he
  subst hL1
  refine ⟨hr2.symm, ?_, (path_at_congr m m1 e (hf.data e)).trans hpe, ?_⟩
  · rw [cache_entries_eq m1 _ hI2]
    exact List.mem_cons_self _ _
  · rw [hf.freed]
    exact hfr

theorem index_sound_witness :
    Reachable dup_sample ∧
    (∀ k e, hashtable_get dup_sample.c.index k = some e →
      e ∈ cache_entries dup_sample ∧ path_at dup_sample e = some k ∧
        e ∉ dup_sample.freed) ∧
    ∀ k m1 e, cache_get dup_sample k = some (m1, some e) →
      hashtable_get dup_sample.c.index k = some e ∧ e ∈ cache_entries m1 ∧
        path_at m1 e = some k ∧ e ∉ m1.freed :=
  ⟨⟨2, 0, [Op.put "/a" "text/html" [1] 1, Op.put "/a" "text/html" [1] 1,
      Op.put "/b" "text/html" [2] 1], by decide, rfl⟩,
    index_sound dup_sample ⟨2, 0, [Op.put "/a" "text/html" [1] 1,
      Op.put "/a" "text/html" [1] 1, Op.put "/b" "text/html" [2] 1], by decide, rfl⟩⟩

/-! ## Absence of null dereferences -/

theorem dllist_neighbours (m : Mem) (L : List Nat) (a : Nat) (hL : dllist m L) (ha : a ∈ L)
    (hh : some a ≠ m.c.head) :
    (∃ x, get_prev m.heap (some a) = some (some x)) ∧
      (some a ≠ m.c.tail → ∃ y, get_next m.heap (some a) = some (some y)) := by
  obtain ⟨s, t, rfl⟩ := List.append_of_mem ha
  rcases eq_nil_or_snoc s with rfl | ⟨s1, x, rfl⟩
  · exact absurd hL.head.symm hh
  · obtain ⟨_, h2⟩ := (seg_append m.heap (s1 ++ [x]) (a :: t) none none).1 hL.links
    rw [last_or_append_singleton] at h2
    obtain ⟨e, he, hp, hn, _⟩ := h2
    refine ⟨⟨x, by simp [get_prev, he, hp]⟩, ?_⟩
    intro ht
    cases t with
    | nil =>
      exfalso
      apply ht
      rw [hL.tail]
      simp
    | cons y t => exact ⟨y, by simp [get_next, he, hn, hd_or]⟩

/-- C15: safety under positive capacity.  For every cache created with `max_size ≥ 1` and
every finite sequence of `cache_put` and `cache_get` calls, the calls complete (a null
dereference would end the run), and in the state reached every further call completes
too.  In that state: whenever `cache_put` reaches `dllist_remove_tail`, the list it runs on
has at least two entries and the removal completes; whenever `dllist_move_to_head` is
called by `cache_get` on an entry that is not the head, its `prev` is non-null (tail branch
and middle branch), and when it is not the tail either (middle branch) its `next` is
non-null as well, also after the first assignment of that branch. -/
theorem no_null_dereference (max_size hashsize : Int) (ops : List Op) (h : 1 ≤ max_size) :
    ∃ m, run (cache_create max_size hashsize) ops = some m ∧
      (∀ k ct p n, ∃ m1, cache_put m k ct p n = some m1) ∧
      (∀ k, ∃ m1 r, cache_get m k = some (m1, r)) ∧
      (∀ k ct p n m2 e,
        dllist_insert_head (alloc_entry m k ct p n).1 (alloc_entry m k ct p n).2 = some m2 →
        m2.heap (alloc_entry m k ct p n).2 = some e →
        m2.c.cur_size + 1 > m2.c.max_size →
        ∃ L3 m4 t, dllist { m2 with c := { m2.c with
              index := hashtable_put m2.c.index e.path (alloc_entry m k ct p n).2,
              cur_size := m2.c.cur_size + 1 } } L3 ∧ 2 ≤ L3.length ∧
          dllist_remove_tail { m2 with c := { m2.c with
              index := hashtable_put m2.c.index e.path (alloc_entry m k ct p n).2,
              cur_size := m2.c.cur_size + 1 } } = some (m4, t)) ∧
      (∀ k a, hashtable_get m.c.index k = some a → some a ≠ m.c.head →
        (∃ x, get_prev m.heap (some a) = some (some x)) ∧
        (some a ≠ m.c.tail →
          ∃ x y h1, get_prev m.heap (some a) = some (some x) ∧
            get_next m.heap (some a) = some (some y) ∧
            set_next m.heap (some x) (some y) = some h1 ∧
            get_next h1 (some a) = some (some y) ∧
            get_prev h1 (some a) = some (some x))) := by
  obtain ⟨m, L, hrun, hI, _⟩ := run_inv _ [] ops (cache_create_inv max_size hashsize h)
  refine ⟨m, hrun, ?_, ?_, ?_, ?_⟩
  · intro k ct p n
    obtain ⟨m1, h1, _, _⟩ := cache_put_inv m L k ct p n hI
    exact ⟨m1, h1⟩
  · intro k
    obtain ⟨m1, r, _, h1, _, _, _, _⟩ := cache_get_inv m L k hI
    exact ⟨m1, r, h1⟩
  · intro k ct p n m2 e hins _ hgt
    have hbrkL : m.brk ∉ L := fun hb => absurd (inv_lt_brk m L hI _ hb) (lt_irrefl _)
    have hd0 : dllist (alloc_entry m k ct p n).1 L := by
      refine ⟨hI.list.nodup, seg_frame m.heap _ L _ _ ?_ hI.list.links, hI.list.head,
        hI.list.tail⟩
      intro a ha
      have : a ≠ m.brk := fun hb => hbrkL (hb ▸ ha)
      simp [alloc_entry, Function.update_noteq this]
    have ha0 : (alloc_entry m k ct p n).1.heap m.brk =
        some { path := k, content_type := ct, content := p.take n.toNat, content_length := n,
               prev := none, next := none } := by
      simp [alloc_entry]
    obtain ⟨m2a, h2, hd2⟩ := dllist_insert_head_spec _ m.brk L _ hd0 ha0 hbrkL
    have h2a : dllist_insert_head (alloc_entry m k ct p n).1 (alloc_entry m k ct p n).2 =
        some m2a := h2
    rw [hins] at h2a
    cases h2a
    have hf2 := dllist_insert_head_frame _ _ _ h2
    have hc2 : m2.c.cur_size = L.length := hf2.cur_size.trans hI.size
    have hx2 : m2.c.max_size = m.c.max_size := hf2.max_size
    have hpos := hI.pos
    obtain ⟨s, t, hst⟩ : ∃ s t, L = s ++ [t] := by
      rcases eq_nil_or_snoc L with hnil | hsn
      · subst hnil
        rw [hc2, hx2] at hgt
        simp at hgt
        omega
      · exact hsn
    subst hst
    obtain ⟨s1, x, hs1⟩ : ∃ s1 x, m.brk :: s = s1 ++ [x] := by
      rcases eq_nil_or_snoc (m.brk :: s) with hnil | hsn
      · cases hnil
      · exact hsn
    have hlist : m.brk :: (s ++ [t]) = s1 ++ [x] ++ [t] := by
      rw [← hs1]
      rfl
    have hd3 : dllist { m2 with c := { m2.c with
        index := hashtable_put m2.c.index e.path (alloc_entry m k ct p n).2,
        cur_size := m2.c.cur_size + 1 } } (s1 ++ [x] ++ [t]) := by
      rw [← hlist]
      exact ⟨hd2.nodup, hd2.links, hd2.head, hd2.tail⟩
    obtain ⟨m4, h4, _, _⟩ := dllist_remove_tail_spec _ s1 x t hd3
    exact ⟨s1 ++ [x] ++ [t], m4, t, hd3, by simp, h4⟩
  · intro k a hg hh
    obtain ⟨haL, _⟩ := hI.sound k a hg
    obtain ⟨⟨x, hx⟩, hnext⟩ := dllist_neighbours m L a hI.list haL hh
    refine ⟨⟨x, hx⟩, ?_⟩
    intro ht
    obtain ⟨y, hy⟩ := hnext ht
    have hxa : x ≠ a := by
      rintro rfl
      obtain ⟨s, t, rfl⟩ := List.append_of_mem haL
      rcases eq_nil_or_snoc s with rfl | ⟨s1, z, rfl⟩
      · exact hh hI.list.head.symm
      · obtain ⟨_, h2⟩ := (seg_append m.heap (s1 ++ [z]) (x :: t) none none).1 hI.list.links
        rw [last_or_append_singleton] at h2
        obtain ⟨e, he, hp, _, _⟩ := h2
        simp [get_prev, he, hp] at hx
        subst hx
        have := hI.list.nodup
        simp [List.nodup_append] at this
    obtain ⟨ex, hex⟩ : ∃ ex, m.heap x = some ex := by
      obtain ⟨s, t, rfl⟩ := List.append_of_mem haL
      rcases eq_nil_or_snoc s with rfl | ⟨s1, z, rfl⟩
      · exact absurd hI.list.head.symm hh
      · obtain ⟨h1, h2⟩ :=
          (seg_append m.heap (s1 ++ [z]) (a :: t) none none).1 hI.list.links
        rw [last_or_append_singleton] at h2
        obtain ⟨e, he, hp, _, _⟩ := h2
        simp [get_prev, he, hp] at hx
        subst hx
        obtain ⟨_, ez, hz, _, _⟩ := (seg_snoc m.heap s1 z none _).1 h1
        exact ⟨ez, hz⟩
    refine ⟨x, y, _, hx, hy, set_next_some m.heap x (some y) ex hex, ?_, ?_⟩
    · simpa [get_next, Function.update_noteq hxa.symm] using hy
    · simpa [get_prev, Function.update_noteq hxa.symm] using hx

theorem no_null_dereference_witness :
    (1 : Int) ≤ 1 ∧
    ∃ m, run (cache_create 1 0)
        [Op.put "/a" "text/html" [1] 1, Op.get "/a", Op.put "/a" "text/html" [2] 1,
         Op.get "/b", Op.put "/b" "text/css" [] 0] = some m ∧
      (∀ k ct p n, ∃ m1, cache_put m k ct p n = some m1) ∧
      (∀ k, ∃ m1 r, cache_get m k = some (m1, r)) ∧
      (∀ k ct p n m2 e,
        dllist_insert_head (alloc_entry m k ct p n).1 (alloc_entry m k ct p n).2 = some m2 →
        m2.heap (alloc_entry m k ct p n).2 = some e →
        m2.c.cur_size + 1 > m2.c.max_size →
        ∃ L3 m4 t, dllist { m2 with c := { m2.c with
              index := hashtable_put m2.c.index e.path (alloc_entry m k ct p n).2,
              cur_size := m2.c.cur_size + 1 } } L3 ∧ 2 ≤ L3.length ∧
          dllist_remove_tail { m2 with c := { m2.c with
              index := hashtable_put m2.c.index e.path (alloc_entry m k ct p n).2,
              cur_size := m2.c.cur_size + 1 } } = some (m4, t)) ∧
      (∀ k a, hashtable_get m.c.index k = some a → some a ≠ m.c.head →
        (∃ x, get_prev m.heap (some a) = some (some x)) ∧
        (some a ≠ m.c.tail →
          ∃ x y h1, get_prev m.heap (some a) = some (some x) ∧
            get_next m.heap (some a) = some (some y) ∧
            set_next m.heap (some x) (some y) = some h1 ∧
            get_next h1 (some a) = some (some y) ∧
            get_prev h1 (some a) = some (some x))) :=
  ⟨by decide, no_null_dereference 1 0 _ (by decide)⟩

/-! ## Counting the index -/

theorem hashtable_mem_keys (ht : hashtable) (k : String) :
    k ∈ ht.map Prod.fst ↔ hashtable_get ht k ≠ none := by
  induction ht with
  | nil => simp [hashtable_get]
  | cons x ht ih =>
    obtain ⟨k1, v⟩ := x
    by_cases hk : k1 = k
    · simp [hashtable_get, hk]
    · have hk1 : ¬ k = k1 := fun h => hk h.symm
      simp [hashtable_get, hk, hk1, ih]

theorem hashtable_delete_sublist (ht : hashtable) (k : String) :
    (hashtable_delete ht k).Sublist ht := by
  induction ht with
  | nil => exact List.Sublist.slnil
  | cons x ht ih =>
    obtain ⟨k1, v⟩ := x
    by_cases hk : k1 = k
    · simp only [hashtable_delete, hk, if_true]
      exact List.Sublist.cons _ ih
    · simp only [hashtable_delete, hk, if_false]
      exact List.Sublist.cons₂ _ ih

theorem hashtable_delete_nodup (ht : hashtable) (k : String)
    (h : (ht.map Prod.fst).Nodup) : ((hashtable_delete ht k).map Prod.fst).Nodup :=
  List.Nodup.sublist ((hashtable_delete_sublist ht k).map Prod.fst) h

theorem hashtable_put_nodup (ht : hashtable) (k : String) (v : Nat)
    (h : (ht.map Prod.fst).Nodup) : ((hashtable_put ht k v).map Prod.fst).Nodup := by
  show (k :: (hashtable_delete ht k).map Prod.fst).Nodup
  refine List.nodup_cons.2 ⟨?_, hashtable_delete_nodup ht k h⟩
  rw [hashtable_mem_keys, hashtable_get_delete, if_pos rfl]
  simp

theorem run_index_nodup (m : Mem) (L : List Nat) (ops : List Op) (hI : Inv m L)
    (hn : (m.c.index.map Prod.fst).Nodup) (m1 : Mem) (hrun : run m ops = some m1) :
    (m1.c.index.map Prod.fst).Nodup := by
  induction ops generalizing m L with
  | nil =>
    cases hrun
    exact hn
  | cons op ops ih =>
    cases op with
    | put k ct p n =>
      obtain ⟨m2, h2, hp, hI2⟩ := cache_put_inv m L k ct p n hI
      have hs : step m (Op.put k ct p n) = some m2 := h2
      simp only [run, hs, Option.some_bind] at hrun
      refine ih m2 _ hI2 ?_ hrun
      have hsz := hI.size
      have hcap := hI.cap
      by_cases hlt : (L.length : Int) < m.c.max_size
      · rw [(hp.keep hlt).1]
        exact hashtable_put_nodup _ _ _ hn
      · obtain ⟨t, kt, _, _, hidx, _⟩ := hp.evict (by omega)
        rw [hidx]
        exact hashtable_delete_nodup _ _ (hashtable_put_nodup _ _ _ hn)
    | get k =>
      obtain ⟨m2, r, L2, h2, hI2, hf, _, _⟩ := cache_get_inv m L k hI
      have hs : step m (Op.get k) = some m2 := by simp [step, h2]
      simp only [run, hs, Option.some_bind] at hrun
      refine ih m2 _ hI2 ?_ hrun
      rw [hf.index]
      exact hn

theorem fresh_puts_take (m : Mem) (ops : List Op) (i : Nat) (h : fresh_puts m ops = true) :
    fresh_puts m (ops.take i) = true := by
  induction ops generalizing m i with
  | nil => simpa using h
  | cons op ops ih =>
    cases i with
    | zero => rfl
    | succ j =>
      simp only [fresh_puts, Bool.and_eq_true, List.take_succ_cons] at h ⊢
      refine ⟨h.1, ?_⟩
      cases hs : step m op with
      | none => rfl
      | some m1 =>
        have h2 := h.2
        rw [hs] at h2
        exact ih m1 j h2

theorem holds_keys_nodup (m : Mem) (K : List String) (h : holds m K) : K.Nodup := by
  obtain ⟨L, hI, hx, hK⟩ := h
  have h1 : (L.map (path_at m)).Nodup := by
    refine List.Nodup.map_on ?_ hI.list.nodup
    intro x hxL y hyL hxy
    have hmem : path_at m x ∈ K.map some := hK ▸ List.mem_map_of_mem _ hxL
    obtain ⟨k, _, hk⟩ := List.mem_map.1 hmem
    have h2 := hx x hxL k hk.symm
    have h3 := hx y hyL k (hxy ▸ hk.symm)
    rw [h2] at h3
    exact Option.some.inj h3
  rw [hK] at h1
  exact List.Nodup.of_map _ h1

/-- C19: with no duplicate live keys the index and the list are in bijection.  For every
cache created with `max_size ≥ 1` and every sequence of `cache_put` and `cache_get` calls
in which no `cache_put` uses a key held at that time by an entry of the recency list,
after each call (after the first `i` calls, for every `i`): the calls have completed, the
list entries have pairwise distinct keys, the number of index associations equals
`cur_size`, and the index maps `k` to `e` iff `e` is on the list with path `k`. -/
theorem index_list_bijection (max_size hashsize : Int) (ops : List Op) (i : Nat)
    (h : 1 ≤ max_size) (hf : fresh_puts (cache_create max_size hashsize) ops = true) :
    ∃ m, run (cache_create max_size hashsize) (ops.take i) = some m ∧
      ((cache_entries m).map (path_at m)).Nodup ∧
      (∀ a ∈ cache_entries m, ∃ k, path_at m a = some k) ∧
      (hashtable_count m.c.index : Int) = m.c.cur_size ∧
      ∀ k e, hashtable_get m.c.index k = some e ↔
        (e ∈ cache_entries m ∧ path_at m e = some k) := by
  obtain ⟨m, K, hrun, hh⟩ := run_fresh_holds _ [] (ops.take i)
    (holds_create max_size hashsize h) (fresh_puts_take _ ops i hf)
  have hKnd := holds_keys_nodup m K hh
  have hidx : (m.c.index.map Prod.fst).Nodup :=
    run_index_nodup _ [] (ops.take i) (cache_create_inv max_size hashsize h)
      (by simp [cache_create, hashtable_create]) m hrun
  have hlook := fun k => holds_lookup m K k hh
  obtain ⟨L, hI, hx, hK⟩ := hh
  refine ⟨m, hrun, ?_⟩
  rw [cache_entries_eq m L hI]
  refine ⟨?_, ?_, ?_, ?_⟩
  · rw [hK]
    exact List.Nodup.map (Option.some_injective String) hKnd
  · intro a ha
    have hmem : path_at m a ∈ K.map some := hK ▸ List.mem_map_of_mem _ ha
    obtain ⟨k, _, hk⟩ := List.mem_map.1 hmem
    exact ⟨k, hk.symm⟩
  · have hperm : (m.c.index.map Prod.fst).Perm K := by
      refine (List.perm_ext_iff_of_nodup hidx hKnd).2 ?_
      intro k
      rw [hashtable_mem_keys]
      constructor
      · intro hne
        by_contra hk
        exact hne ((hlook k).1 hk)
      · intro hk
        obtain ⟨a, ha⟩ := (hlook k).2 hk
        rw [ha]
        simp
    have h1 := hperm.length_eq
    have h2 := congrArg List.length hK
    simp only [List.length_map] at h1 h2
    rw [hI.size]
    show ((m.c.index.length : Nat) : Int) = _
    rw [h1, h2]
  · intro k e
    constructor
    · intro hg
      exact hI.sound k e hg
    · intro hle
      exact hx e hle.1 k hle.2

theorem index_list_bijection_witness :
    (1 : Int) ≤ 2 ∧
    fresh_puts (cache_create 2 0)
      [Op.put "/a" "text/html" [1] 1, Op.put "/b" "text/html" [2] 1, Op.get "/a",
       Op.put "/c" "text/css" [3, 4] 2, Op.put "/b" "text/plain" [] 0] = true ∧
    ∃ m, run (cache_create 2 0)
        ([Op.put "/a" "text/html" [1] 1, Op.put "/b" "text/html" [2] 1, Op.get "/a",
          Op.put "/c" "text/css" [3, 4] 2, Op.put "/b" "text/plain" [] 0].take 5) = some m ∧
      ((cache_entries m).map (path_at m)).Nodup ∧
      (∀ a ∈ cache_entries m, ∃ k, path_at m a = some k) ∧
      (hashtable_count m.c.index : Int) = m.c.cur_size ∧
      ∀ k e, hashtable_get m.c.index k = some e ↔
        (e ∈ cache_entries m ∧ path_at m e = some k) :=
  ⟨by decide, by decide, index_list_bijection 2 0 _ 5 (by decide) (by decide)⟩

end LRUCache
